import Mathlib

/-!
Shallow embedding of the provider normalization pipeline of this repository
(src/model.rs, src/provider_a.rs, src/provider_b.rs, src/provider_c.rs,
src/main.rs).

Modelling conventions:
* `chrono::Utc::now()` is abstracted as an explicit `now : String` parameter
  threaded to the functions that stamp timestamps (the claims under study do
  not depend on the timestamp values).
* `serde_json::from_str` (an external crate) is abstracted as the
  deserialization outcome handed to `parse` for providers a and b.
* the `csv` crate's reader (default configuration: `has_headers(true)`,
  non-flexible) is modelled explicitly for provider c on `List Char`.
* `BTreeMap<String, _>` is modelled as an association list sorted strictly by
  key (`alInsert` keeps the sort order and replaces on an existing key;
  iteration order of the model list is the map's ascending key order).
  Rust's `String` ordering is byte-wise lexicographic on UTF-8, which agrees
  with Lean's `String` linear order (lexicographic on code points).
* `HashSet<usize>` is modelled as a `List Nat` with membership-preserving
  insert; only membership is ever observed.
* machine integers (`i64`) are modelled as `Int`; none of the operations in
  the pipeline can overflow on the values the claims quantify over, and the
  `i64`-range check of `str::parse::<i64>` is noted where it is abstracted.
* fallible code (`unwrap`, `BTreeMap` indexing, which panic in Rust) is
  modelled with `Option`: a `none` result marks a panic of the original code.
-/

/-! ### model.rs -/

/-- `NormalizeScore` (model.rs): one canonical score value. -/
structure NormalizeScore where
  dimension : String
  value : Int
  scale : String
deriving DecidableEq

/-- `NormalizeData` (model.rs): one canonical record.  `metadata` is a
`BTreeMap<String,String>` modelled as a sorted association list. -/
structure NormalizeData where
  patientId : String
  assessmentDate : String
  assessmentType : String
  scores : List NormalizeScore
  metadata : List (String × String)
deriving DecidableEq

/-- `NormalizeData::new` (model.rs): fresh record with empty score list; the
`date.to_rfc3339()` stamp is abstracted as the pre-rendered `now` string. -/
def NormalizeData.new (patientId assessmentType : String) (now : String)
    (metadata : List (String × String)) : NormalizeData :=
  ⟨patientId, now, assessmentType, [], metadata⟩

/-- `NormalizationError` (model.rs). -/
inductive NormalizationError where
  | none : NormalizationError
  | Parse : String → NormalizationError
  | Validate : String → Nat → NormalizationError
  | Aggregate : List NormalizationError → NormalizationError
  | Unknown : String → NormalizationError

/-- Provider adapter state: `data` is the parsed row storage, `error_index`
the set of invalid row ordinals (`HashSet<usize>` modelled as a list,
observed only through membership).  Each provider's handler struct in the
source has exactly these two fields. -/
structure PState (R : Type) where
  data : List R
  error_index : List Nat
deriving DecidableEq

/-- `ProviderHandler::new()`: empty rows, empty error index. -/
def PState.new (R : Type) : PState R := ⟨[], []⟩

/-! ### Byte-order string comparison

Rust's `BTreeMap<String, _>` orders keys by `Ord` on `String`: byte-wise
lexicographic on the UTF-8 encoding, which for valid UTF-8 agrees with
lexicographic comparison of the code-point sequences.  `strLt` is that
comparison, written structurally so that it evaluates inside the kernel. -/

def listCharLt : List Char → List Char → Bool
  | [], [] => false
  | [], _ :: _ => true
  | _ :: _, [] => false
  | a :: as, b :: bs =>
    if a.toNat = b.toNat then listCharLt as bs else decide (a.toNat < b.toNat)

def strLt (s t : String) : Bool :=
  listCharLt s.data t.data

/-! ### Sorted association lists: the `BTreeMap<String, α>` model -/

/-- `BTreeMap::get` / indexing: first entry with the given key. -/
def alFind (k : String) : List (String × α) → Option α
  | [] => Option.none
  | (k', v) :: rest => if k = k' then some v else alFind k rest

/-- `BTreeMap::contains_key`. -/
def alContains (k : String) (m : List (String × α)) : Bool :=
  (alFind k m).isSome

/-- `BTreeMap::insert`: insert keeping ascending key order, replacing the
value when the key is already present. -/
def alInsert (k : String) (v : α) : List (String × α) → List (String × α)
  | [] => [(k, v)]
  | (k', v') :: rest =>
    if strLt k k' then (k, v) :: (k', v') :: rest
    else if k = k' then (k, v) :: rest
    else (k', v') :: alInsert k v rest

/-- Strict ascending key order: the `BTreeMap` representation invariant. -/
def alSorted (m : List (String × α)) : Prop :=
  m.Pairwise (fun p q => strLt p.1 q.1 = true)

/-! ### The grouping fold shared by every adapter's `convert`

All three `convert` implementations run the same loop body over their rows:
skip rows flagged in `error_index`; derive a patient id, an assessment type
and a list of scores from the row; group into a
`BTreeMap<String, BTreeMap<String, NormalizeData>>`; finally flatten the
nested map in ascending key order.  `Entry` is the derived
(patientId, assessmentType, scores) triple of one surviving row. -/

abbrev Entry := String × String × List NormalizeScore

abbrev PMap := List (String × List (String × NormalizeData))

def entryKey (e : Entry) : String × String := (e.1, e.2.1)

def entryScores (e : Entry) : List NormalizeScore := e.2.2

/-- One iteration of the grouping loop (provider_a.rs lines 106–126,
provider_b.rs lines 91–113, provider_c.rs lines 128–148): insert-if-absent
into the outer map, insert-if-absent a fresh `NormalizeData::new` into the
inner map, then append the row's scores to the record's score list. -/
def stepE (now : String) (meta : List (String × String)) (acc : PMap)
    (e : Entry) : PMap :=
  let inner := (alFind e.1 acc).getD []
  let prev := (alFind e.2.1 inner).getD (NormalizeData.new e.1 e.2.1 now meta)
  let upd := { prev with scores := prev.scores ++ e.2.2 }
  alInsert e.1 (alInsert e.2.1 upd inner) acc

/-- The final double loop of `convert`: flatten the nested map in ascending
(patientId, assessmentType) key order. -/
def flattenP (m : PMap) : List NormalizeData :=
  m.flatMap (fun p => p.2.map Prod.snd)

/-- All (outer key, inner key) pairs of the nested map, in iteration order. -/
def pairsOf (m : PMap) : List (String × String) :=
  m.flatMap (fun p => p.2.map (fun q => (p.1, q.1)))

/-- Both levels of the nested map are sorted strictly by key. -/
def pmapSorted (m : PMap) : Prop :=
  alSorted m ∧ ∀ p ∈ m, alSorted p.2

def lookup2 (m : PMap) (id t : String) : Option NormalizeData :=
  (alFind id m).bind (fun inner => alFind t inner)

/-- Entries of `es` whose derived key is exactly `(id, t)`. -/
def keyFilter (es : List Entry) (id t : String) : List Entry :=
  es.filter (fun e => decide (entryKey e = (id, t)))

/-- Invariant of the grouping loop after the entries `es` have been folded
into the nested map `m`: the map is sorted, and the record stored under
`(id, t)` is fully determined — it exists iff some entry has that key, and
its score list is the concatenation, in entry order, of the scores of the
entries with that key. -/
def GInv (now : String) (meta : List (String × String)) (es : List Entry)
    (m : PMap) : Prop :=
  pmapSorted m ∧
  (∀ id t rec, lookup2 m id t = some rec →
    rec = ⟨id, now, t, (keyFilter es id t).flatMap entryScores, meta⟩ ∧
    keyFilter es id t ≠ []) ∧
  (∀ id t, lookup2 m id t = Option.none → keyFilter es id t = [])

/-- The record under `(pid, at_)` before a step: either the one already in
the map or a fresh `NormalizeData::new`. -/
def stepPrev (now : String) (meta : List (String × String)) (m : PMap)
    (pid at_ : String) : NormalizeData :=
  (alFind at_ ((alFind pid m).getD [])).getD
    (NormalizeData.new pid at_ now meta)

/-- The output order relation of `convert`: ascending lexicographic by
patient id, then by assessment type. -/
def pairLt (p q : String × String) : Prop :=
  strLt p.1 q.1 = true ∨ (p.1 = q.1 ∧ strLt p.2 q.2 = true)

/-! ### Indexed iteration, the validation loop, and the `HashSet` model -/

/-- `.iter().enumerate()` starting at index `n`. -/
def enumIdx (n : Nat) : List α → List (Nat × α)
  | [] => []
  | a :: as => (n, a) :: enumIdx (n + 1) as

/-- `HashSet::insert` (only membership is observed afterwards). -/
def idxInsert (i : Nat) (s : List Nat) : List Nat :=
  if i ∈ s then s else s ++ [i]

/-- The shared validation loop (provider_a.rs lines 82–93, provider_b.rs
lines 56–79, provider_c.rs lines 106–116): scan rows in order; for each row
failing the provider's predicate, push exactly one
`Validate("Data is invalid", index)` entry and insert the index into the
error set.  (provider_b's loop pushes at the first failing score key and
then `break`s, so it too contributes exactly one entry per failing row.) -/
def valLoop (fail : R → Bool) :
    List (Nat × R) → List NormalizationError → List Nat →
      List NormalizationError × List Nat
  | [], out, idx => (out, idx)
  | p :: rest, out, idx =>
    if fail p.2 then
      valLoop fail rest (out ++ [NormalizationError.Validate "Data is invalid" p.1])
        (idxInsert p.1 idx)
    else
      valLoop fail rest out idx

/-- `Option`-valued `mapM`, modelling a loop whose body can panic. -/
def optMapM (f : α → Option β) : List α → Option (List β)
  | [] => some []
  | a :: as =>
    match f a with
    | Option.none => Option.none
    | some b => (optMapM f as).map (fun bs => b :: bs)

/-- Rows surviving the `error_index` check, in order. -/
def survivorsFrom (errIdx : List Nat) (l : List (Nat × α)) : List α :=
  (l.filter (fun p => decide (p.1 ∉ errIdx))).map Prod.snd

/-- The `convert` loop for an adapter whose per-row extraction is total
(provider a, whose rows are structs): skip flagged indices, otherwise fold
the derived entry into the nested map. -/
def convLoop (now : String) (meta : List (String × String)) (f : R → Entry)
    (errIdx : List Nat) : List (Nat × R) → PMap → PMap
  | [], acc => acc
  | p :: rest, acc =>
    convLoop now meta f errIdx rest
      (if p.1 ∈ errIdx then acc else stepE now meta acc (f p.2))

/-- The `convert` loop for an adapter whose per-row extraction can panic
(providers b and c, whose rows are maps indexed with panicking lookups and
`unwrap`): `Option.none` marks the panic. -/
def convLoopOpt (now : String) (meta : List (String × String))
    (f : R → Option Entry) (errIdx : List Nat) :
    List (Nat × R) → PMap → Option PMap
  | [], acc => some acc
  | p :: rest, acc =>
    if p.1 ∈ errIdx then convLoopOpt now meta f errIdx rest acc
    else
      match f p.2 with
      | Option.none => Option.none
      | some e => convLoopOpt now meta f errIdx rest (stepE now meta acc e)

/-! ### Character-level utilities (kernel-reducible models of the string
operations the pipeline uses) -/

/-- Does the first list lead the second (`str::starts_with`)? -/
def listLeads : List Char → List Char → Bool
  | [], _ => true
  | _ :: _, [] => false
  | a :: as, b :: bs => decide (a = b) && listLeads as bs

/-- `key.starts_with("score_")` (provider_b.rs line 67 / 103). -/
def isScoreKey (k : String) : Bool :=
  listLeads "score_".data k.data

/-- `&key["score_".len()..]` (provider_b.rs line 104): byte slicing; the
first 6 bytes are the ASCII prefix `score_`, so dropping 6 characters
agrees with dropping 6 bytes. -/
def dimOf (k : String) : String :=
  String.mk (k.data.drop 6)

def allDigits (l : List Char) : Bool :=
  decide (l ≠ []) && l.all Char.isDigit

def natOfDigits (l : List Char) : Nat :=
  l.foldl (fun n c => n * 10 + (c.toNat - '0'.toNat)) 0

/-- Model of Rust `str::parse::<i64>`: optional single sign, then one or
more ASCII digits, nothing else.  The `i64` overflow bound is not modelled:
every parsed value the pipeline accepts is range-checked into [0, 100], and
out-of-range literals are rejected there just as an overflowing literal is
rejected by the real parse. -/
def parseI64 (s : String) : Option Int :=
  match s.data with
  | [] => Option.none
  | '+' :: rest =>
    if allDigits rest then some (Int.ofNat (natOfDigits rest)) else Option.none
  | '-' :: rest =>
    if allDigits rest then some (-(Int.ofNat (natOfDigits rest))) else Option.none
  | l => if allDigits l then some (Int.ofNat (natOfDigits l)) else Option.none

/-- `str::trim` (ASCII whitespace suffices for the inputs modelled here). -/
def trimChars (l : List Char) : List Char :=
  ((l.dropWhile Char.isWhitespace).reverse.dropWhile Char.isWhitespace).reverse

def trimStr (s : String) : String :=
  String.mk (trimChars s.data)

/-- Split on a separator character, `String::splitOn` style:
`"a,b"` gives `[a], [b]`; separators at the ends yield empty groups. -/
def splitOnChar (c : Char) : List Char → List (List Char)
  | [] => [[]]
  | a :: as =>
    if a = c then [] :: splitOnChar c as
    else
      match splitOnChar c as with
      | [] => [[a]]
      | g :: gs => (a :: g) :: gs

def leapYear (y : Nat) : Bool :=
  y % 4 == 0 && (y % 100 != 0 || y % 400 == 0)

def daysInMonth (y m : Nat) : Nat :=
  if m = 2 then (if leapYear y then 29 else 28)
  else if m = 4 ∨ m = 6 ∨ m = 9 ∨ m = 11 then 30 else 31

/-- Model of `chrono::NaiveDate::parse_from_str(s, "%Y-%m-%d")`
(provider_c.rs lines 9–16) for non-negative years: three dash-separated
digit groups, month and day of one or two digits, a calendar-valid
month/day pair; the whole string must be consumed. -/
def parse_assessment_date (s : String) : Option (Nat × Nat × Nat) :=
  match splitOnChar '-' s.data with
  | [ys, ms, ds] =>
    if allDigits ys && allDigits ms && decide (ms.length ≤ 2) &&
        allDigits ds && decide (ds.length ≤ 2) then
      let y := natOfDigits ys
      let m := natOfDigits ms
      let d := natOfDigits ds
      if 1 ≤ m ∧ m ≤ 12 ∧ 1 ≤ d ∧ d ≤ daysInMonth y m then some (y, m, d)
      else Option.none
    else Option.none
  | _ => Option.none

/-! ### provider_a.rs: the nested-JSON adapter -/

/-- `Patient` (provider_a.rs).  `dob` holds the result of the lenient
`parse_dob` deserializer: `None` whenever the raw text did not match
`%Y%m%d`; a parsed date is abstracted as a (year, month, day) triple. -/
structure Patient where
  id : String
  name : String
  dob : Option (Nat × Nat × Nat)
deriving DecidableEq

/-- `Assessment` (provider_a.rs); `scores` is a `BTreeMap<String, i64>`,
modelled in ascending key order. -/
structure Assessment where
  type_ : String
  scores : List (String × Int)
  notes : String
deriving DecidableEq

/-- `Data` (provider_a.rs): one nested-JSON row. -/
structure DataA where
  patient : Patient
  assessment : Assessment
deriving DecidableEq

/-- `get_metadata` (provider_a.rs lines 62–69) in `BTreeMap` key order. -/
def metaA (now : String) : List (String × String) :=
  [("ingestedAt", now), ("sourceFormat", "nested_json"),
   ("sourceProvider", "provider_a"), ("version", "1.0")]

/-- `parse` (provider_a.rs lines 71–79): `serde_json::from_str::<Vec<Data>>`
is abstracted as the outcome `input`; on success the row storage is
*replaced* (`self.data = result`). -/
def parseA (input : Except String (List DataA)) (s : PState DataA) :
    Except NormalizationError (PState DataA) :=
  match input with
  | .ok rows => .ok { s with data := rows }
  | .error msg => .error (NormalizationError.Parse msg)

/-- The row predicate of `validate` (provider_a.rs lines 84–89): a row is
flagged only when every significant field is simultaneously empty/absent. -/
def failA (d : DataA) : Bool :=
  decide (d.patient.id.length = 0) && decide (d.patient.name.length = 0) &&
  d.patient.dob.isNone && decide (d.assessment.type_.length = 0) &&
  decide (d.assessment.scores.length = 0) &&
  decide (d.assessment.notes.length = 0)

/-- `validate` (provider_a.rs lines 81–96). -/
def validateA (s : PState DataA) : NormalizationError × PState DataA :=
  let r := valLoop failA (enumIdx 0 s.data) [] s.error_index
  (if r.1.length > 0 then NormalizationError.Aggregate r.1
   else NormalizationError.none,
   { s with error_index := r.2 })

/-- The entry derived from a surviving row by `convert`
(provider_a.rs lines 106–124): `value * 10`, scale `"0-100"`. -/
def entryA (d : DataA) : Entry :=
  (d.patient.id, d.assessment.type_,
    d.assessment.scores.map (fun p => ⟨p.1, p.2 * 10, "0-100"⟩))

/-- `convert` (provider_a.rs lines 98–137). -/
def convertA (now : String) (s : PState DataA) : List NormalizeData :=
  flattenP (convLoop now (metaA now) entryA s.error_index (enumIdx 0 s.data) [])

/-- `run_provider` (main.rs lines 10–18) applied to provider a. -/
def run_provider_a (now : String) (input : Except String (List DataA))
    (s : PState DataA) :
    Except NormalizationError (List NormalizeData × NormalizationError) :=
  match parseA input s with
  | .error e => .error e
  | .ok s1 =>
    let v := validateA s1
    .ok (convertA now v.2, v.1)

/-! ### provider_b.rs: the flat key/value JSON adapter -/

/-- `serde_json::Value` restricted to what provider b observes: a string, an
integer representable as `i64`, or anything else (floats, bools, null,
arrays, objects — neither `is_string` nor `is_i64`). -/
inductive JValue where
  | str : String → JValue
  | int : Int → JValue
  | other : JValue
deriving DecidableEq

def JValue.isString : JValue → Bool
  | .str _ => true
  | _ => false

def JValue.isI64 : JValue → Bool
  | .int _ => true
  | _ => false

def JValue.asStr : JValue → Option String
  | .str s => some s
  | _ => Option.none

def JValue.asI64 : JValue → Option Int
  | .int n => some n
  | _ => Option.none

/-- One flat-JSON row: a `BTreeMap<String, serde_json::Value>`. -/
abbrev RowB := List (String × JValue)

/-- `get_metadata` (provider_b.rs lines 36–43) in `BTreeMap` key order. -/
def metaB (now : String) : List (String × String) :=
  [("ingestedAt", now), ("sourceFormat", "flat_key_value"),
   ("sourceProvider", "provider_b"), ("version", "1.0")]

/-- `parse` (provider_b.rs lines 45–53): like provider a, replacement. -/
def parseB (input : Except String (List RowB)) (s : PState RowB) :
    Except NormalizationError (PState RowB) :=
  match input with
  | .ok rows => .ok { s with data := rows }
  | .error msg => .error (NormalizationError.Parse msg)

/-- The ID/NAME/TYPE/NOTES checks of provider_b.rs lines 9–16:
`data.contains_key(k) && data[k].is_string()` (the `&&` short-circuits, so
the panicking index is guarded). -/
def checkStrField (k : String) (row : RowB) : Bool :=
  match alFind k row with
  | some v => v.isString
  | Option.none => false

/-- `data.keys().filter(|x| x.starts_with("score_"))` in map key order. -/
def scoreKeys (row : RowB) : List String :=
  (row.map Prod.fst).filter isScoreKey

/-- The row predicate of `validate` (provider_b.rs lines 57–78).  The loop
body pushes one entry and `continue`s on a failed field check, or pushes one
entry and `break`s at the first `score_*` key that is not an `i64` (the
second `as_i64` check on line 73 can never fire after `is_i64` succeeded):
net effect, exactly one entry for a row satisfying this predicate. -/
def failB (row : RowB) : Bool :=
  !(checkStrField "patient_id" row && checkStrField "patient_name" row &&
    checkStrField "assessment_type" row && checkStrField "notes" row) ||
  (scoreKeys row).any (fun k =>
    !(match alFind k row with
      | some v => v.isI64
      | Option.none => false))

/-- `validate` (provider_b.rs lines 55–81). -/
def validateB (s : PState RowB) : NormalizationError × PState RowB :=
  let r := valLoop failB (enumIdx 0 s.data) [] s.error_index
  (if r.1.length > 0 then NormalizationError.Aggregate r.1
   else NormalizationError.none,
   { s with error_index := r.2 })

/-- The entry derived from a surviving row by `convert` (provider_b.rs
lines 91–111): `data[ID.0].as_str().unwrap()`, `data[TYPE.0].as_str()
.unwrap()` and `data[key].as_i64().unwrap()` all panic (`Option.none`) when
the lookup or coercion fails; the score value is stored *unchanged* with
scale `"0-100"` (line 108). -/
def extractB (row : RowB) : Option Entry :=
  match (alFind "patient_id" row).bind JValue.asStr with
  | Option.none => Option.none
  | some pid =>
    match (alFind "assessment_type" row).bind JValue.asStr with
    | Option.none => Option.none
    | some at_ =>
      (optMapM (fun k =>
          ((alFind k row).bind JValue.asI64).map
            (fun v => NormalizeScore.mk (dimOf k) v "0-100"))
        (scoreKeys row)).map (fun scs => (pid, at_, scs))

/-- `convert` (provider_b.rs lines 83–124). -/
def convertB (now : String) (s : PState RowB) : Option (List NormalizeData) :=
  (convLoopOpt now (metaB now) extractB s.error_index
    (enumIdx 0 s.data) []).map flattenP

/-- `run_provider` (main.rs lines 10–18) applied to provider b; the outer
`Option` marks a panic inside `convert`. -/
def run_provider_b (now : String) (input : Except String (List RowB))
    (s : PState RowB) :
    Option (Except NormalizationError
      (List NormalizeData × NormalizationError)) :=
  match parseB input s with
  | .error e => some (.error e)
  | .ok s1 =>
    let v := validateB s1
    (convertB now v.2).map (fun out => Except.ok (out, v.1))

/-! ### provider_c.rs: the delimited-text adapter -/

/-- One delimited-text row: a `BTreeMap<String, String>`. -/
abbrev RowC := List (String × String)

/-- `get_metadata` (provider_c.rs lines 57–64) in `BTreeMap` key order. -/
def metaC (now : String) : List (String × String) :=
  [("ingestedAt", now), ("sourceFormat", "csv"),
   ("sourceProvider", "provider_c"), ("version", "1.0")]

/-- The ID check (provider_c.rs lines 19–20):
`contains_key && data[k].len() > 0`. -/
def checkNonEmptyField (k : String) (row : RowC) : Bool :=
  match alFind k row with
  | some s => decide (s.length > 0)
  | Option.none => false

/-- The DATE check (provider_c.rs lines 21–23). -/
def checkDateField (row : RowC) : Bool :=
  match alFind "assessment_date" row with
  | some s => (parse_assessment_date s).isSome
  | Option.none => false

/-- The VALUE check (provider_c.rs lines 26–36): `metric_value` parses as
`i64` and lies in [0, 100]. -/
def checkValueField (row : RowC) : Bool :=
  match alFind "metric_value" row with
  | some s =>
    match parseI64 s with
    | some v => decide (0 ≤ v) && decide (v ≤ 100)
    | Option.none => false
  | Option.none => false

/-- The row predicate of `validate` (provider_c.rs lines 108–112). -/
def failC (row : RowC) : Bool :=
  !(checkNonEmptyField "patient_id" row && checkDateField row &&
    checkNonEmptyField "metric_name" row && checkValueField row &&
    checkNonEmptyField "category" row)

/-- `validate` (provider_c.rs lines 105–118). -/
def validateC (s : PState RowC) : NormalizationError × PState RowC :=
  let r := valLoop failC (enumIdx 0 s.data) [] s.error_index
  (if r.1.length > 0 then NormalizationError.Aggregate r.1
   else NormalizationError.none,
   { s with error_index := r.2 })

/-- `splitLines`/`csvFields`: the csv crate's record and field separation
for unquoted input. -/
def splitLines (s : String) : List (List Char) :=
  splitOnChar '\n' s.data

def csvFields (line : List Char) : List String :=
  (splitOnChar ',' line).map String.mk

/-- Model of the `csv` crate reader used by `parse` (provider_c.rs lines
67–69): default configuration, i.e. `has_headers(true)` and
`flexible(false)`.  The first non-empty line is the header record; truly
empty lines are skipped, as the crate does.  With `flexible(false)`, a data
record whose field count differs from the header's field count makes the
record iterator yield a record-level `csv::Error` — modelled as
`Option.none` — and iteration continues with the following record.  Quoting
is not modelled; no input in this development contains quotes. -/
def csvRecords (s : String) : List String × List (Option (List String)) :=
  match (splitLines s).filter (fun l => decide (l ≠ [])) with
  | [] => ([], [])
  | h :: rest =>
    let headers := csvFields h
    (headers, rest.map (fun l =>
      let fs := csvFields l
      if fs.length = headers.length then some fs else Option.none))

/-- Row construction (provider_c.rs lines 90–95): insert each trimmed value
under its header name, in column order (`BTreeMap::insert`). -/
def rowFromC (headers : List String) (values : List String) : RowC :=
  (headers.zip values).foldl (fun m p => alInsert p.1 (trimStr p.2) m) []

/-- The record loop of `parse` (provider_c.rs lines 82–100).  `if let
Ok(values)` silently skips the records the csv reader flagged
(`Option.none`); for an `Ok` record the explicit field-count check of lines
86–88 is kept, and the row is *pushed* after the existing storage
(`self.data.push(row)`, line 97 — the storage is never cleared). -/
def goParseC (headerCount : Nat) (headers : List String) :
    List (Option (List String)) → PState RowC →
      Except NormalizationError (PState RowC)
  | [], st => .ok st
  | Option.none :: rest, st => goParseC headerCount headers rest st
  | some values :: rest, st =>
    if values.length ≠ headerCount then
      .error (NormalizationError.Parse "Field count is not equal to header count")
    else
      goParseC headerCount headers rest
        { st with data := st.data ++ [rowFromC headers values] }

/-- `parse` (provider_c.rs lines 66–103).  The
`Parse("Missing header row")` branch (line 78) requires `rdr.headers()`
itself to fail, which the csv crate does only on I/O or UTF-8 errors —
unreachable on in-memory string input — so it is not modelled. -/
def parseC (text : String) (s : PState RowC) :
    Except NormalizationError (PState RowC) :=
  let r := csvRecords text
  goParseC r.1.length r.1 r.2 s

/-- The rows `parse` appends for a given input text: the records the csv
reader accepted, keyed by the header line. -/
def rowsOfC (text : String) : List RowC :=
  ((csvRecords text).2.filterMap id).map (rowFromC (csvRecords text).1)

/-- The entry derived from a surviving row by `convert` (provider_c.rs
lines 128–147): `data[ID.0]`, `data[CATEGORY.0]`, `data[METRIC.0]` are
panicking map indexings and `data[VALUE.0].parse::<i64>().unwrap()` panics
on an unparseable value (`Option.none` models the panic); the single score
is stored as `value * 10` with scale `"0-100"` (line 144). -/
def extractC (row : RowC) : Option Entry :=
  match alFind "patient_id" row with
  | Option.none => Option.none
  | some id =>
    match alFind "category" row with
    | Option.none => Option.none
    | some cat =>
      match alFind "metric_name" row with
      | Option.none => Option.none
      | some metric =>
        match (alFind "metric_value" row).bind parseI64 with
        | Option.none => Option.none
        | some v => some (id, cat, [NormalizeScore.mk metric (v * 10) "0-100"])

/-- `convert` (provider_c.rs lines 120–159). -/
def convertC (now : String) (s : PState RowC) : Option (List NormalizeData) :=
  (convLoopOpt now (metaC now) extractC s.error_index
    (enumIdx 0 s.data) []).map flattenP

/-- `run_provider` (main.rs lines 10–18) applied to provider c. -/
def run_provider_c (now : String) (text : String) (s : PState RowC) :
    Option (Except NormalizationError
      (List NormalizeData × NormalizationError)) :=
  match parseC text s with
  | .error e => some (.error e)
  | .ok s1 =>
    let v := validateC s1
    (convertC now v.2).map (fun out => Except.ok (out, v.1))

/-- Example rows used by the concrete instantiations below. -/
def exA1 : DataA := ⟨⟨"P1", "n", Option.none⟩, ⟨"t", [("a", 2)], ""⟩⟩

def exA2 : DataA := ⟨⟨"P1", "m", Option.none⟩, ⟨"t", [("b", 3)], ""⟩⟩

def exSA : PState DataA := ⟨[exA1, exA2], []⟩

def exRecA : NormalizeData :=
  ⟨"P1", "T", "t", [⟨"a", 20, "0-100"⟩, ⟨"b", 30, "0-100"⟩], metaA "T"⟩

def exRowB : RowB :=
  [("assessment_type", JValue.str "t"), ("notes", JValue.str "n"),
   ("patient_id", JValue.str "P1"), ("patient_name", JValue.str "nm"),
   ("score_x", JValue.int 7)]

def exSB : PState RowB := ⟨[exRowB], []⟩

def exRowC : RowC :=
  [("assessment_date", "2024-10-15"), ("category", "beh"),
   ("metric_name", "m"), ("metric_value", "6"), ("patient_id", "P1")]

def exSC : PState RowC := ⟨[exRowC], []⟩

/-! ### Theorems -/

theorem charToNat_inj {a b : Char} (h : a.toNat = b.toNat) : a = b :=
  Char.ext (UInt32.ext h)

theorem listCharLt_irrefl : ∀ l : List Char, listCharLt l l = false
  | [] => rfl
  | a :: as => by
    rw [listCharLt]
    simp [listCharLt_irrefl as]

theorem listCharLt_trans : ∀ {a b c : List Char}, listCharLt a b = true →
    listCharLt b c = true → listCharLt a c = true
  | [], [], _, h1, _ => by rw [listCharLt] at h1; exact absurd h1 (by simp)
  | [], _ :: _, [], _, h2 => by rw [listCharLt] at h2; exact absurd h2 (by simp)
  | [], _ :: _, _ :: _, _, _ => rfl
  | _ :: _, [], _, h1, _ => by rw [listCharLt] at h1; exact absurd h1 (by simp)
  | _ :: _, _ :: _, [], _, h2 => by
    rw [listCharLt] at h2; exact absurd h2 (by simp)
  | x :: xs, y :: ys, z :: zs, h1, h2 => by
    rw [listCharLt] at h1 h2 ⊢
    by_cases hxy : x.toNat = y.toNat
    · by_cases hyz : y.toNat = z.toNat
      · rw [if_pos hxy] at h1
        rw [if_pos hyz] at h2
        rw [if_pos (hxy.trans hyz)]
        exact listCharLt_trans h1 h2
      · rw [if_neg hyz] at h2
        have hxz : ¬ x.toNat = z.toNat := by
          rw [hxy]; exact hyz
        rw [if_neg hxz]
        rw [hxy]
        exact h2
    · rw [if_neg hxy] at h1
      by_cases hyz : y.toNat = z.toNat
      · have hxz : ¬ x.toNat = z.toNat := by
          rw [← hyz]; exact hxy
        rw [if_neg hxz, ← hyz]
        exact h1
      · rw [if_neg hyz] at h2
        have hlt1 := of_decide_eq_true h1
        have hlt2 := of_decide_eq_true h2
        have hxz : ¬ x.toNat = z.toNat := by omega
        rw [if_neg hxz]
        exact decide_eq_true (by omega)

theorem listCharLt_antisymm : ∀ {a b : List Char}, listCharLt a b = false →
    listCharLt b a = false → a = b
  | [], [], _, _ => rfl
  | [], _ :: _, h1, _ => by rw [listCharLt] at h1; exact absurd h1 (by simp)
  | _ :: _, [], _, h2 => by rw [listCharLt] at h2; exact absurd h2 (by simp)
  | x :: xs, y :: ys, h1, h2 => by
    rw [listCharLt] at h1 h2
    by_cases hxy : x.toNat = y.toNat
    · rw [if_pos hxy] at h1
      rw [if_pos hxy.symm] at h2
      rw [charToNat_inj hxy, listCharLt_antisymm h1 h2]
    · rw [if_neg hxy] at h1
      rw [if_neg (fun h => hxy h.symm)] at h2
      have hlt1 := of_decide_eq_false h1
      have hlt2 := of_decide_eq_false h2
      omega

theorem strLt_irrefl (s : String) : strLt s s = false :=
  listCharLt_irrefl s.data

theorem strLt_trans {a b c : String} (h1 : strLt a b = true)
    (h2 : strLt b c = true) : strLt a c = true :=
  listCharLt_trans h1 h2

theorem strLt_antisymm {a b : String} (h1 : strLt a b = false)
    (h2 : strLt b a = false) : a = b :=
  String.ext (listCharLt_antisymm h1 h2)

theorem strLt_total {a b : String} (h1 : strLt a b = false) (h2 : a ≠ b) :
    strLt b a = true := by
  cases h : strLt b a with
  | true => rfl
  | false => exact absurd (strLt_antisymm h1 h) h2

theorem strLt_ne {a b : String} (h : strLt a b = true) : a ≠ b := by
  intro he
  rw [he, strLt_irrefl] at h
  exact Bool.noConfusion h

theorem alFind_insert_self (k : String) (v : α) (m : List (String × α)) :
    alFind k (alInsert k v m) = some v := by
  induction m with
  | nil => simp [alInsert, alFind]
  | cons p rest ih =>
    obtain ⟨k', v'⟩ := p
    by_cases h1 : strLt k k' = true
    · simp [alInsert, h1, alFind]
    · by_cases h2 : k = k'
      · simp [alInsert, h1, h2, alFind, strLt_irrefl]
      · simp [alInsert, h1, h2, alFind, ih]

theorem alFind_insert_ne (k k₀ : String) (v : α) (m : List (String × α))
    (hne : k ≠ k₀) : alFind k (alInsert k₀ v m) = alFind k m := by
  induction m with
  | nil => simp [alInsert, alFind, hne]
  | cons p rest ih =>
    obtain ⟨k', v'⟩ := p
    by_cases h1 : strLt k₀ k' = true
    · simp only [alInsert, if_pos h1, alFind, if_neg hne]
    · by_cases h2 : k₀ = k'
      · subst h2
        simp only [alInsert, if_neg h1, if_pos rfl, alFind, if_neg hne]
      · by_cases h3 : k = k'
        · simp only [alInsert, if_neg h1, if_neg h2, alFind, if_pos h3]
        · simp only [alInsert, if_neg h1, if_neg h2, alFind, if_neg h3, ih]

theorem alMem_insert {k : String} {v : α} {m : List (String × α)}
    {p : String × α} (hp : p ∈ alInsert k v m) : p = (k, v) ∨ p ∈ m := by
  induction m with
  | nil => simpa [alInsert] using hp
  | cons q rest ih =>
    obtain ⟨k', v'⟩ := q
    by_cases h1 : strLt k k' = true
    · simp only [alInsert, if_pos h1, List.mem_cons] at hp
      rcases hp with h | h | h
      · exact Or.inl h
      · exact Or.inr (by simp [h])
      · exact Or.inr (List.mem_cons_of_mem _ h)
    · by_cases h2 : k = k'
      · simp only [alInsert, if_neg h1, if_pos h2, List.mem_cons] at hp
        rcases hp with h | h
        · exact Or.inl h
        · exact Or.inr (List.mem_cons_of_mem _ h)
      · simp only [alInsert, if_neg h1, if_neg h2, List.mem_cons] at hp
        rcases hp with h | h
        · exact Or.inr (by simp [h])
        · rcases ih h with h' | h'
          · exact Or.inl h'
          · exact Or.inr (List.mem_cons_of_mem _ h')

theorem alInsert_sorted {k : String} {v : α} {m : List (String × α)}
    (hm : alSorted m) : alSorted (alInsert k v m) := by
  induction m with
  | nil => simp [alInsert, alSorted]
  | cons q rest ih =>
    obtain ⟨k', v'⟩ := q
    rw [alSorted, List.pairwise_cons] at hm
    obtain ⟨hk', hrest⟩ := hm
    by_cases h1 : strLt k k' = true
    · rw [alSorted, alInsert]
      simp only [if_pos h1]
      refine List.Pairwise.cons ?_ (List.Pairwise.cons hk' hrest)
      intro p hp
      rcases List.mem_cons.mp hp with h | h
      · simp [h, h1]
      · exact strLt_trans h1 (hk' p h)
    · by_cases h2 : k = k'
      · rw [alSorted, alInsert]
        simp only [if_neg h1, if_pos h2]
        refine List.Pairwise.cons ?_ hrest
        intro p hp
        exact h2 ▸ hk' p hp
      · have h3 : strLt k' k = true := by
          apply strLt_total _ h2
          cases hkk : strLt k k' with
          | false => rfl
          | true => exact absurd hkk h1
        rw [alSorted, alInsert]
        simp only [if_neg h1, if_neg h2]
        refine List.Pairwise.cons ?_ (ih hrest)
        intro p hp
        rcases alMem_insert hp with h | h
        · simp [h, h3]
        · exact hk' p h

theorem alFind_mem {k : String} {v : α} {m : List (String × α)}
    (h : alFind k m = some v) : (k, v) ∈ m := by
  induction m with
  | nil => simp [alFind] at h
  | cons q rest ih =>
    obtain ⟨k', v'⟩ := q
    by_cases hk : k = k'
    · simp only [alFind, if_pos hk] at h
      subst hk
      exact List.mem_cons.mpr (Or.inl (by rw [Option.some.inj h]))
    · simp only [alFind, if_neg hk] at h
      exact List.mem_cons_of_mem _ (ih h)

theorem alMem_find {k : String} {v : α} {m : List (String × α)}
    (hs : alSorted m) (h : (k, v) ∈ m) : alFind k m = some v := by
  induction m with
  | nil => simp at h
  | cons q rest ih =>
    obtain ⟨k', v'⟩ := q
    rw [alSorted, List.pairwise_cons] at hs
    obtain ⟨hk', hrest⟩ := hs
    rcases List.mem_cons.mp h with h | h
    · rw [Prod.mk.injEq] at h
      simp [alFind, h.1, h.2]
    · have hne : k ≠ k' := by
        intro he
        have := hk' (k, v) h
        simp only [he, strLt_irrefl] at this
        exact Bool.noConfusion this
      simp only [alFind, if_neg hne]
      exact ih hrest h

theorem alFind_none {k : String} {m : List (String × α)}
    (h : alFind k m = Option.none) : ∀ v, (k, v) ∉ m := by
  intro v hv
  induction m with
  | nil => simp at hv
  | cons q rest ih =>
    obtain ⟨k', v'⟩ := q
    by_cases hk : k = k'
    · simp [alFind, hk] at h
    · simp only [alFind, if_neg hk] at h
      rcases List.mem_cons.mp hv with hv | hv
      · rw [Prod.mk.injEq] at hv
        exact hk hv.1
      · exact ih h hv

theorem ginv_nil (now : String) (meta : List (String × String)) :
    GInv now meta [] [] := by
  refine ⟨⟨List.Pairwise.nil, by simp⟩, ?_, ?_⟩
  · intro id t rec h
    simp [lookup2, alFind] at h
  · intro id t _
    simp [keyFilter]

theorem keyFilter_append (es : List Entry) (e : Entry) (id t : String) :
    keyFilter (es ++ [e]) id t =
      keyFilter es id t ++ (if entryKey e = (id, t) then [e] else []) := by
  by_cases h : entryKey e = (id, t) <;> simp [keyFilter, List.filter_append, h]

theorem lookup2_getD (m : PMap) (id t : String) :
    lookup2 m id t = alFind t ((alFind id m).getD []) := by
  rw [lookup2]
  cases alFind id m <;> simp [alFind]

theorem stepE_eq (now : String) (meta : List (String × String)) (m : PMap)
    (pid at_ : String) (scs : List NormalizeScore) :
    stepE now meta m (pid, at_, scs) =
      alInsert pid
        (alInsert at_
          { stepPrev now meta m pid at_ with
            scores := (stepPrev now meta m pid at_).scores ++ scs }
          ((alFind pid m).getD []))
        m := rfl

theorem lookup2_stepE_self (now : String) (meta : List (String × String))
    (m : PMap) (pid at_ : String) (scs : List NormalizeScore) :
    lookup2 (stepE now meta m (pid, at_, scs)) pid at_ =
      some { stepPrev now meta m pid at_ with
             scores := (stepPrev now meta m pid at_).scores ++ scs } := by
  rw [lookup2_getD, stepE_eq, alFind_insert_self]
  simp [alFind_insert_self]

theorem lookup2_stepE_same_id (now : String) (meta : List (String × String))
    (m : PMap) (pid at_ t : String) (scs : List NormalizeScore)
    (ht : t ≠ at_) :
    lookup2 (stepE now meta m (pid, at_, scs)) pid t = lookup2 m pid t := by
  rw [lookup2_getD, stepE_eq, alFind_insert_self]
  simp only [Option.getD_some]
  rw [alFind_insert_ne t at_ _ _ ht, ← lookup2_getD]

theorem lookup2_stepE_other (now : String) (meta : List (String × String))
    (m : PMap) (pid at_ id t : String) (scs : List NormalizeScore)
    (hid : id ≠ pid) :
    lookup2 (stepE now meta m (pid, at_, scs)) id t = lookup2 m id t := by
  rw [lookup2_getD, stepE_eq, alFind_insert_ne id pid _ _ hid, ← lookup2_getD]

theorem ginv_step (now : String) (meta : List (String × String))
    {es : List Entry} {m : PMap} (hInv : GInv now meta es m) (e : Entry) :
    GInv now meta (es ++ [e]) (stepE now meta m e) := by
  obtain ⟨⟨hso, hsi⟩, hsome, hnone⟩ := hInv
  obtain ⟨pid, at_, scs⟩ := e
  have hinner : alSorted ((alFind pid m).getD []) := by
    cases hf : alFind pid m with
    | none => simp [alSorted]
    | some inner => exact hsi _ (alFind_mem hf)
  have hkey_self : entryKey (pid, at_, scs) = (pid, at_) := rfl
  refine ⟨⟨?_, ?_⟩, ?_, ?_⟩
  · rw [stepE_eq]
    exact alInsert_sorted hso
  · rw [stepE_eq]
    intro p hp
    rcases alMem_insert hp with h | h
    · rw [h]
      exact alInsert_sorted hinner
    · exact hsi p h
  · -- records present after the step
    intro id t rec hrec
    by_cases hid : id = pid
    · subst hid
      by_cases ht : t = at_
      · subst ht
        rw [lookup2_stepE_self] at hrec
        have hrec' := (Option.some.inj hrec).symm
        have hfilter : keyFilter (es ++ [(id, t, scs)]) id t =
            keyFilter es id t ++ [(id, t, scs)] := by
          rw [keyFilter_append]
          simp [entryKey]
        cases hprev : lookup2 m id t with
        | none =>
          have hold : keyFilter es id t = [] := hnone id t hprev
          have hsp : stepPrev now meta m id t =
              NormalizeData.new id t now meta := by
            rw [stepPrev, ← lookup2_getD, hprev]
            rfl
          refine ⟨?_, ?_⟩
          · rw [hrec', hsp, hfilter, hold]
            simp [NormalizeData.new, entryScores]
          · rw [hfilter, hold]
            simp
        | some prev =>
          obtain ⟨hprev_eq, hprev_ne⟩ := hsome id t prev hprev
          have hsp : stepPrev now meta m id t = prev := by
            rw [stepPrev, ← lookup2_getD, hprev]
            rfl
          refine ⟨?_, ?_⟩
          · rw [hrec', hsp, hprev_eq, hfilter]
            simp [entryScores]
          · rw [hfilter]
            simp
      · rw [lookup2_stepE_same_id now meta m id at_ t scs ht] at hrec
        obtain ⟨h1, h2⟩ := hsome id t rec hrec
        have hke : ¬ entryKey (id, at_, scs) = (id, t) := by
          rw [hkey_self]
          intro h
          exact ht (congrArg Prod.snd h).symm
        rw [keyFilter_append]
        simp only [hke, if_neg, ite_false]
        refine ⟨?_, ?_⟩
        · rw [h1]
          simp
        · simp [h2]
    · rw [lookup2_stepE_other now meta m pid at_ id t scs hid] at hrec
      obtain ⟨h1, h2⟩ := hsome id t rec hrec
      have hke : ¬ entryKey (pid, at_, scs) = (id, t) := by
        rw [hkey_self]
        intro h
        exact hid (congrArg Prod.fst h).symm
      rw [keyFilter_append]
      simp only [hke, if_neg, ite_false]
      refine ⟨?_, ?_⟩
      · rw [h1]
        simp
      · simp [h2]
  · -- keys absent after the step
    intro id t hlk
    by_cases hid : id = pid
    · subst hid
      by_cases ht : t = at_
      · subst ht
        rw [lookup2_stepE_self] at hlk
        exact absurd hlk (by simp)
      · rw [lookup2_stepE_same_id now meta m id at_ t scs ht] at hlk
        have hold := hnone id t hlk
        rw [keyFilter_append, hold]
        have hke : ¬ entryKey (id, at_, scs) = (id, t) := by
          rw [hkey_self]
          intro h
          exact ht (congrArg Prod.snd h).symm
        simp [hke]
    · rw [lookup2_stepE_other now meta m pid at_ id t scs hid] at hlk
      have hold := hnone id t hlk
      rw [keyFilter_append, hold]
      have hke : ¬ entryKey (pid, at_, scs) = (id, t) := by
        rw [hkey_self]
        intro h
        exact hid (congrArg Prod.fst h).symm
      simp [hke]

/-- Folding a list of entries into the map preserves the invariant. -/
theorem ginv_fold (now : String) (meta : List (String × String))
    (es : List Entry) :
    ∀ (es₀ : List Entry) (m : PMap), GInv now meta es₀ m →
      GInv now meta (es₀ ++ es) (es.foldl (stepE now meta) m) := by
  induction es with
  | nil =>
    intro es₀ m h
    simpa using h
  | cons e rest ih =>
    intro es₀ m h
    have h1 := ginv_step now meta h e
    have h2 := ih (es₀ ++ [e]) (stepE now meta m e) h1
    simpa using h2

theorem ginv_of_foldl (now : String) (meta : List (String × String))
    (es : List Entry) :
    GInv now meta es (es.foldl (stepE now meta) []) := by
  have := ginv_fold now meta es [] [] (ginv_nil now meta)
  simpa using this

theorem pairLt_ne {p q : String × String} (h : pairLt p q) : p ≠ q := by
  intro he
  subst he
  rcases h with h | ⟨_, h⟩ <;> simp [strLt_irrefl] at h

theorem mem_flattenP {m : PMap} (hm : pmapSorted m) {rec : NormalizeData} :
    rec ∈ flattenP m ↔ ∃ id t, lookup2 m id t = some rec := by
  obtain ⟨hso, hsi⟩ := hm
  constructor
  · intro h
    rw [flattenP, List.mem_flatMap] at h
    obtain ⟨q, hq, hrec⟩ := h
    rw [List.mem_map] at hrec
    obtain ⟨r, hr, hrrec⟩ := hrec
    refine ⟨q.1, r.1, ?_⟩
    rw [lookup2, alMem_find hso hq]
    simp only [Option.bind_eq_bind, Option.some_bind]
    rw [alMem_find (hsi q hq) (by simpa using hr)]
    rw [hrrec]
  · rintro ⟨id, t, h⟩
    rw [lookup2] at h
    cases hf : alFind id m with
    | none => simp [hf] at h
    | some inner =>
      rw [hf] at h
      simp only [Option.bind_eq_bind, Option.some_bind] at h
      rw [flattenP, List.mem_flatMap]
      exact ⟨(id, inner), alFind_mem hf,
        List.mem_map.mpr ⟨(t, rec), alFind_mem h, rfl⟩⟩

theorem pairsOf_fst_mem {m : PMap} {p : String × String}
    (hp : p ∈ pairsOf m) : ∃ q ∈ m, p.1 = q.1 := by
  rw [pairsOf, List.mem_flatMap] at hp
  obtain ⟨q, hq, hp⟩ := hp
  rw [List.mem_map] at hp
  obtain ⟨r, _, hrp⟩ := hp
  exact ⟨q, hq, by rw [← hrp]⟩

theorem pairsOf_pairwise {m : PMap} (hm : pmapSorted m) :
    (pairsOf m).Pairwise pairLt := by
  obtain ⟨hso, hsi⟩ := hm
  induction m with
  | nil => simp [pairsOf]
  | cons q rest ih =>
    rw [alSorted, List.pairwise_cons] at hso
    obtain ⟨hq, hrest⟩ := hso
    have : pairsOf (q :: rest) = q.2.map (fun r => (q.1, r.1)) ++ pairsOf rest := by
      simp [pairsOf]
    rw [this, List.pairwise_append]
    refine ⟨?_, ?_, ?_⟩
    · have hqs : alSorted q.2 := hsi q (List.mem_cons_self q rest)
      rw [alSorted] at hqs
      exact List.Pairwise.map _ (fun a b hab => Or.inr ⟨rfl, hab⟩) hqs
    · exact ih hrest (fun p hp => hsi p (List.mem_cons_of_mem q hp))
    · intro a ha b hb
      rw [List.mem_map] at ha
      obtain ⟨r, _, har⟩ := ha
      obtain ⟨q', hq', hbq'⟩ := pairsOf_fst_mem hb
      left
      rw [← har, hbq']
      exact hq q' hq'

theorem flattenP_length (m : PMap) :
    (flattenP m).length = (pairsOf m).length := by
  induction m with
  | nil => rfl
  | cons q rest ih => simp [flattenP, pairsOf] at ih ⊢; exact ih

theorem pairsOf_mem_iff {m : PMap} (hm : pmapSorted m)
    {p : String × String} :
    p ∈ pairsOf m ↔ ∃ rec, lookup2 m p.1 p.2 = some rec := by
  obtain ⟨hso, hsi⟩ := hm
  constructor
  · intro hp
    rw [pairsOf, List.mem_flatMap] at hp
    obtain ⟨q, hq, hp⟩ := hp
    rw [List.mem_map] at hp
    obtain ⟨r, hr, hrp⟩ := hp
    refine ⟨r.2, ?_⟩
    rw [← hrp, lookup2]
    simp only
    rw [alMem_find hso hq]
    simp only [Option.bind_eq_bind, Option.some_bind]
    exact alMem_find (hsi q hq) (by simpa using hr)
  · rintro ⟨rec, h⟩
    rw [lookup2] at h
    cases hf : alFind p.1 m with
    | none => simp [hf] at h
    | some inner =>
      rw [hf] at h
      simp only [Option.bind_eq_bind, Option.some_bind] at h
      rw [pairsOf, List.mem_flatMap]
      exact ⟨(p.1, inner), alFind_mem hf,
        List.mem_map.mpr ⟨(p.2, rec), alFind_mem h, rfl⟩⟩

/-- Under the grouping invariant, a key pair is in the map exactly when some
entry produced it. -/
theorem pairsOf_mem_entries {now : String} {meta : List (String × String)}
    {es : List Entry} {m : PMap} (hInv : GInv now meta es m)
    {p : String × String} :
    p ∈ pairsOf m ↔ p ∈ es.map entryKey := by
  obtain ⟨hsorted, hsome, hnone⟩ := hInv
  rw [pairsOf_mem_iff hsorted]
  constructor
  · rintro ⟨rec, h⟩
    obtain ⟨_, hne⟩ := hsome p.1 p.2 rec h
    obtain ⟨e, he⟩ := List.exists_mem_of_ne_nil _ hne
    rw [keyFilter, List.mem_filter] at he
    rw [List.mem_map]
    refine ⟨e, he.1, ?_⟩
    have := of_decide_eq_true he.2
    simpa using this
  · intro hp
    rw [List.mem_map] at hp
    obtain ⟨e, he, hkey⟩ := hp
    cases h : lookup2 m p.1 p.2 with
    | none =>
      exfalso
      have hempty := hnone p.1 p.2 h
      have : e ∈ keyFilter es p.1 p.2 := by
        rw [keyFilter, List.mem_filter]
        refine ⟨he, ?_⟩
        rw [decide_eq_true_iff, hkey]
      rw [hempty] at this
      simp at this
    | some rec => exact ⟨rec, rfl⟩

/-- The number of output records is the number of distinct (patientId,
assessmentType) pairs among the entries. -/
theorem flattenP_count {now : String} {meta : List (String × String)}
    {es : List Entry} {m : PMap} (hInv : GInv now meta es m) :
    (flattenP m).length = (es.map entryKey).dedup.length := by
  have hpw := pairsOf_pairwise hInv.1
  have hnd : (pairsOf m).Nodup := hpw.imp pairLt_ne
  have hext : (pairsOf m).toFinset = (es.map entryKey).toFinset := by
    apply Finset.ext
    intro p
    rw [List.mem_toFinset, List.mem_toFinset]
    exact pairsOf_mem_entries hInv
  calc (flattenP m).length = (pairsOf m).length := flattenP_length m
    _ = (pairsOf m).toFinset.card := (List.toFinset_card_of_nodup hnd).symm
    _ = (es.map entryKey).toFinset.card := by rw [hext]
    _ = (es.map entryKey).dedup.length := List.card_toFinset _

/-- Key consistency: each stored record carries the keys it is filed under. -/
theorem ginv_key_consistent {now : String} {meta : List (String × String)}
    {es : List Entry} {m : PMap} (hInv : GInv now meta es m) :
    ∀ p ∈ m, ∀ r ∈ p.2,
      r.2.patientId = p.1 ∧ r.2.assessmentType = r.1 := by
  obtain ⟨⟨hso, hsi⟩, hsome, _⟩ := hInv
  intro p hp r hr
  have hlk : lookup2 m p.1 r.1 = some r.2 := by
    rw [lookup2, alMem_find hso hp]
    simp only [Option.bind_eq_bind, Option.some_bind]
    exact alMem_find (hsi p hp) (by simpa using hr)
  obtain ⟨heq, _⟩ := hsome p.1 r.1 r.2 hlk
  rw [heq]
  exact ⟨rfl, rfl⟩

/-- Every record in the flattened output carries its own key pair: the pair
list of the output is exactly `pairsOf`. -/
theorem flattenP_map_key {m : PMap}
    (hkc : ∀ p ∈ m, ∀ r ∈ p.2,
      r.2.patientId = p.1 ∧ r.2.assessmentType = r.1) :
    (flattenP m).map (fun rec => (rec.patientId, rec.assessmentType)) =
      pairsOf m := by
  induction m with
  | nil => rfl
  | cons q rest ih =>
    have htail := ih (fun p hp => hkc p (List.mem_cons_of_mem q hp))
    simp only [flattenP, pairsOf, List.flatMap_cons, List.map_append,
      List.map_map] at htail ⊢
    rw [htail]
    congr 1
    apply List.map_congr_left
    intro r hr
    obtain ⟨h1, h2⟩ := hkc q (List.mem_cons_self q rest) r hr
    simp [Function.comp, h1, h2]

theorem mem_enumIdx {n : Nat} {l : List α} {p : Nat × α} :
    p ∈ enumIdx n l ↔
      ∃ j, ∃ h : j < l.length, p.1 = n + j ∧ p.2 = l.get ⟨j, h⟩ := by
  induction l generalizing n with
  | nil => simp [enumIdx]
  | cons a as ih =>
    rw [enumIdx, List.mem_cons, ih]
    constructor
    · rintro (h | ⟨j, hj, h1, h2⟩)
      · exact ⟨0, by simp, by simp [h], by simp [h]⟩
      · refine ⟨j + 1, by rw [List.length_cons]; omega, by omega, ?_⟩
        rw [h2]
        rfl
    · rintro ⟨j, hj, h1, h2⟩
      cases j with
      | zero =>
        left
        rw [Prod.ext_iff]
        exact ⟨by simpa using h1, by simpa using h2⟩
      | succ j' =>
        right
        have hj' : j' < as.length := by
          rw [List.length_cons] at hj
          omega
        refine ⟨j', hj', by omega, ?_⟩
        rw [h2]
        rfl

theorem enumIdx_fst_ge {n : Nat} {l : List α} {p : Nat × α}
    (hp : p ∈ enumIdx n l) : n ≤ p.1 := by
  rw [mem_enumIdx] at hp
  obtain ⟨j, _, h1, _⟩ := hp
  omega

theorem enumIdx_pairwise (n : Nat) (l : List α) :
    (enumIdx n l).Pairwise (fun p q => p.1 < q.1) := by
  induction l generalizing n with
  | nil => exact List.Pairwise.nil
  | cons a as ih =>
    refine List.Pairwise.cons ?_ (ih (n + 1))
    intro p hp
    have := enumIdx_fst_ge hp
    omega

theorem mem_idxInsert {i j : Nat} {s : List Nat} :
    j ∈ idxInsert i s ↔ j = i ∨ j ∈ s := by
  rw [idxInsert]
  by_cases h : i ∈ s
  · simp only [if_pos h]
    constructor
    · exact Or.inr
    · rintro (rfl | hj)
      · exact h
      · exact hj
  · simp [if_neg h, List.mem_append, or_comm]

theorem valLoop_out (fail : R → Bool) (l : List (Nat × R))
    (out : List NormalizationError) (idx : List Nat) :
    (valLoop fail l out idx).1 =
      out ++ (l.filter (fun p => fail p.2)).map
        (fun p => NormalizationError.Validate "Data is invalid" p.1) := by
  induction l generalizing out idx with
  | nil => simp [valLoop]
  | cons p rest ih =>
    by_cases h : fail p.2
    · rw [valLoop]
      simp only [if_pos h]
      rw [ih]
      simp [h]
    · rw [valLoop]
      simp only [if_neg h]
      rw [ih]
      simp [h]

theorem valLoop_idx (fail : R → Bool) (l : List (Nat × R))
    (out : List NormalizationError) (idx : List Nat) (j : Nat) :
    j ∈ (valLoop fail l out idx).2 ↔
      j ∈ idx ∨ ∃ p ∈ l, fail p.2 ∧ p.1 = j := by
  induction l generalizing out idx with
  | nil => simp [valLoop]
  | cons p rest ih =>
    by_cases h : fail p.2
    · rw [valLoop]
      simp only [if_pos h]
      rw [ih, mem_idxInsert]
      constructor
      · rintro ((rfl | hj) | ⟨q, hq, hfq, hqj⟩)
        · exact Or.inr ⟨p, List.mem_cons_self p rest, h, rfl⟩
        · exact Or.inl hj
        · exact Or.inr ⟨q, List.mem_cons_of_mem p hq, hfq, hqj⟩
      · rintro (hj | ⟨q, hq, hfq, hqj⟩)
        · exact Or.inl (Or.inr hj)
        · rcases List.mem_cons.mp hq with rfl | hq'
          · exact Or.inl (Or.inl hqj.symm)
          · exact Or.inr ⟨q, hq', hfq, hqj⟩
    · rw [valLoop]
      simp only [if_neg h]
      rw [ih]
      constructor
      · rintro (hj | ⟨q, hq, hfq, hqj⟩)
        · exact Or.inl hj
        · exact Or.inr ⟨q, List.mem_cons_of_mem p hq, hfq, hqj⟩
      · rintro (hj | ⟨q, hq, hfq, hqj⟩)
        · exact Or.inl hj
        · rcases List.mem_cons.mp hq with rfl | hq'
          · exact absurd hfq (by simp [h])
          · exact Or.inr ⟨q, hq', hfq, hqj⟩

theorem optMapM_isSome (f : α → Option β) (l : List α)
    (h : ∀ a ∈ l, (f a).isSome) : (optMapM f l).isSome := by
  induction l with
  | nil => simp [optMapM]
  | cons a as ih =>
    rw [optMapM]
    cases hfa : f a with
    | none =>
      exfalso
      have := h a (List.mem_cons_self a as)
      rw [hfa] at this
      simp at this
    | some b =>
      have := ih (fun x hx => h x (List.mem_cons_of_mem a hx))
      cases hmm : optMapM f as with
      | none => rw [hmm] at this; simp at this
      | some bs => simp [hmm]

theorem optMapM_mem (f : α → Option β) {l : List α} {bs : List β}
    (h : optMapM f l = some bs) {b : β} (hb : b ∈ bs) :
    ∃ a ∈ l, f a = some b := by
  induction l generalizing bs with
  | nil =>
    rw [optMapM] at h
    rw [← Option.some.inj h] at hb
    simp at hb
  | cons a as ih =>
    rw [optMapM] at h
    cases hfa : f a with
    | none => rw [hfa] at h; simp at h
    | some b' =>
      rw [hfa] at h
      cases hmm : optMapM f as with
      | none => rw [hmm] at h; simp at h
      | some bs' =>
        rw [hmm] at h
        simp only [Option.map_some] at h
        rw [← Option.some.inj h] at hb
        rcases List.mem_cons.mp hb with rfl | hb'
        · exact ⟨a, List.mem_cons_self a as, hfa⟩
        · obtain ⟨x, hx, hfx⟩ := ih hmm hb'
          exact ⟨x, List.mem_cons_of_mem a hx, hfx⟩

theorem mem_survivorsFrom {errIdx : List Nat} {l : List α} {a : α} :
    a ∈ survivorsFrom errIdx (enumIdx 0 l) ↔
      ∃ j, ∃ h : j < l.length, j ∉ errIdx ∧ a = l.get ⟨j, h⟩ := by
  rw [survivorsFrom, List.mem_map]
  constructor
  · rintro ⟨p, hp, hpa⟩
    rw [List.mem_filter] at hp
    obtain ⟨hpl, hpe⟩ := hp
    rw [mem_enumIdx] at hpl
    obtain ⟨j, hj, h1, h2⟩ := hpl
    refine ⟨j, hj, ?_, by rw [← hpa, h2]⟩
    have := of_decide_eq_true hpe
    rwa [h1, Nat.zero_add] at this
  · rintro ⟨j, hj, hje, ha⟩
    refine ⟨(j, l.get ⟨j, hj⟩), ?_, ha.symm⟩
    rw [List.mem_filter]
    refine ⟨?_, by simpa using hje⟩
    rw [mem_enumIdx]
    exact ⟨j, hj, by omega, rfl⟩

theorem survivorsFrom_cons_skip {errIdx : List Nat} {p : Nat × α}
    {rest : List (Nat × α)} (h : p.1 ∈ errIdx) :
    survivorsFrom errIdx (p :: rest) = survivorsFrom errIdx rest := by
  rw [survivorsFrom, survivorsFrom, List.filter_cons]
  simp [h]

theorem survivorsFrom_cons_keep {errIdx : List Nat} {p : Nat × α}
    {rest : List (Nat × α)} (h : p.1 ∉ errIdx) :
    survivorsFrom errIdx (p :: rest) = p.2 :: survivorsFrom errIdx rest := by
  rw [survivorsFrom, survivorsFrom, List.filter_cons]
  simp [h]

theorem convLoop_eq (now : String) (meta : List (String × String))
    (f : R → Entry) (errIdx : List Nat) (l : List (Nat × R)) (acc : PMap) :
    convLoop now meta f errIdx l acc =
      ((survivorsFrom errIdx l).map f).foldl (stepE now meta) acc := by
  induction l generalizing acc with
  | nil => rfl
  | cons p rest ih =>
    by_cases h : p.1 ∈ errIdx
    · rw [convLoop]
      simp only [if_pos h]
      rw [ih, survivorsFrom_cons_skip h]
    · rw [convLoop]
      simp only [if_neg h]
      rw [ih, survivorsFrom_cons_keep h, List.map_cons, List.foldl_cons]

theorem convLoopOpt_eq (now : String) (meta : List (String × String))
    (f : R → Option Entry) (errIdx : List Nat) (l : List (Nat × R))
    (acc : PMap) :
    convLoopOpt now meta f errIdx l acc =
      (optMapM f (survivorsFrom errIdx l)).map
        (fun es => es.foldl (stepE now meta) acc) := by
  induction l generalizing acc with
  | nil => rfl
  | cons p rest ih =>
    by_cases h : p.1 ∈ errIdx
    · rw [convLoopOpt]
      simp only [if_pos h]
      rw [ih, survivorsFrom_cons_skip h]
    · rw [convLoopOpt]
      simp only [if_neg h]
      rw [survivorsFrom_cons_keep h, optMapM]
      cases hf : f p.2 with
      | none => rfl
      | some e =>
        cases hmm : optMapM f (survivorsFrom errIdx rest) with
        | none => simp [ih, hmm]
        | some es => simp [ih, hmm, List.foldl_cons]

/-! ### Characterization of the grouping fold's output -/

/-- Full characterization of `flattenP (es.foldl (stepE now meta) [])`:
record count, output order, and the content of every record. -/
theorem foldChar (now : String) (meta : List (String × String))
    (es : List Entry) :
    (flattenP (es.foldl (stepE now meta) [])).length =
        (es.map entryKey).dedup.length ∧
    ((flattenP (es.foldl (stepE now meta) [])).map
        (fun r => (r.patientId, r.assessmentType))).Pairwise pairLt ∧
    (∀ rec ∈ flattenP (es.foldl (stepE now meta) []),
      rec = ⟨rec.patientId, now, rec.assessmentType,
        (keyFilter es rec.patientId rec.assessmentType).flatMap entryScores,
        meta⟩ ∧
      keyFilter es rec.patientId rec.assessmentType ≠ []) := by
  have hInv := ginv_of_foldl now meta es
  refine ⟨flattenP_count hInv, ?_, ?_⟩
  · rw [flattenP_map_key (ginv_key_consistent hInv)]
    exact pairsOf_pairwise hInv.1
  · intro rec hrec
    rw [mem_flattenP hInv.1] at hrec
    obtain ⟨id, t, hlk⟩ := hrec
    obtain ⟨heq, hne⟩ := hInv.2.1 id t rec hlk
    have hid : rec.patientId = id := by rw [heq]
    have ht : rec.assessmentType = t := by rw [heq]
    rw [hid, ht]
    exact ⟨heq, hne⟩

/-- Score provenance: every score of every output record comes from an entry
with that record's key pair. -/
theorem foldChar_score (now : String) (meta : List (String × String))
    (es : List Entry) {rec : NormalizeData}
    (hrec : rec ∈ flattenP (es.foldl (stepE now meta) []))
    {sc : NormalizeScore} (hsc : sc ∈ rec.scores) :
    ∃ e ∈ es, entryKey e = (rec.patientId, rec.assessmentType) ∧
      sc ∈ entryScores e := by
  obtain ⟨heq, _⟩ := (foldChar now meta es).2.2 rec hrec
  have hscores : rec.scores =
      (keyFilter es rec.patientId rec.assessmentType).flatMap entryScores := by
    conv_lhs => rw [heq]
  rw [hscores, List.mem_flatMap] at hsc
  obtain ⟨e, he, hesc⟩ := hsc
  rw [keyFilter, List.mem_filter] at he
  exact ⟨e, he.1, of_decide_eq_true he.2, hesc⟩

/-- Record provenance: every output record's key pair comes from some entry. -/
theorem foldChar_pair (now : String) (meta : List (String × String))
    (es : List Entry) {rec : NormalizeData}
    (hrec : rec ∈ flattenP (es.foldl (stepE now meta) [])) :
    ∃ e ∈ es, entryKey e = (rec.patientId, rec.assessmentType) := by
  obtain ⟨_, hne⟩ := (foldChar now meta es).2.2 rec hrec
  obtain ⟨e, he⟩ := List.exists_mem_of_ne_nil _ hne
  rw [keyFilter, List.mem_filter] at he
  exact ⟨e, he.1, of_decide_eq_true he.2⟩

/-- `convertA` rewritten through the survivor entries. -/
theorem convertA_eq (now : String) (s : PState DataA) :
    convertA now s =
      flattenP (((survivorsFrom s.error_index (enumIdx 0 s.data)).map
        entryA).foldl (stepE now (metaA now)) []) := by
  rw [convertA, convLoop_eq]

/-- `convertB` succeeds exactly on the extraction outcomes of the surviving
rows. -/
theorem convertB_eq (now : String) (s : PState RowB)
    {out : List NormalizeData} :
    convertB now s = some out ↔
      ∃ es, optMapM extractB
          (survivorsFrom s.error_index (enumIdx 0 s.data)) = some es ∧
        out = flattenP (es.foldl (stepE now (metaB now)) []) := by
  rw [convertB, convLoopOpt_eq]
  cases hmm : optMapM extractB (survivorsFrom s.error_index (enumIdx 0 s.data)) with
  | none => simp
  | some es =>
    constructor
    · intro h
      refine ⟨es, rfl, ?_⟩
      have := h.symm
      simpa using this
    · rintro ⟨es', hes', hout⟩
      have hee : es' = es := by
        have := hes'.symm
        simpa using this
      subst hee
      have := hout.symm
      simpa using this

/-- `convertC` succeeds exactly on the extraction outcomes of the surviving
rows. -/
theorem convertC_eq (now : String) (s : PState RowC)
    {out : List NormalizeData} :
    convertC now s = some out ↔
      ∃ es, optMapM extractC
          (survivorsFrom s.error_index (enumIdx 0 s.data)) = some es ∧
        out = flattenP (es.foldl (stepE now (metaC now)) []) := by
  rw [convertC, convLoopOpt_eq]
  cases hmm : optMapM extractC (survivorsFrom s.error_index (enumIdx 0 s.data)) with
  | none => simp
  | some es =>
    constructor
    · intro h
      refine ⟨es, rfl, ?_⟩
      have := h.symm
      simpa using this
    · rintro ⟨es', hes', hout⟩
      have hee : es' = es := by
        have := hes'.symm
        simpa using this
      subst hee
      have := hout.symm
      simpa using this

/-! ### Validation bridges -/

theorem valLoop_idx_enum (fail : R → Bool) (l : List R) (idx : List Nat)
    (j : Nat) :
    j ∈ (valLoop fail (enumIdx 0 l) [] idx).2 ↔
      j ∈ idx ∨ ∃ h : j < l.length, fail (l.get ⟨j, h⟩) = true := by
  rw [valLoop_idx]
  apply or_congr Iff.rfl
  constructor
  · rintro ⟨p, hp, hf, hpj⟩
    rw [mem_enumIdx] at hp
    obtain ⟨j', hj', h1, h2⟩ := hp
    have hjj : j = j' := by omega
    subst hjj
    refine ⟨hj', ?_⟩
    rw [← h2]
    exact hf
  · rintro ⟨h, hf⟩
    exact ⟨(j, l.get ⟨j, h⟩), mem_enumIdx.mpr ⟨j, h, by omega, rfl⟩, hf, rfl⟩

/-- A row that survives a validation pass satisfies no failure predicate. -/
theorem survivors_pass (fail : R → Bool) (l : List R) (idx : List Nat) :
    ∀ r ∈ survivorsFrom (valLoop fail (enumIdx 0 l) [] idx).2 (enumIdx 0 l),
      fail r = false := by
  intro r hr
  rw [mem_survivorsFrom] at hr
  obtain ⟨j, h, hj, hr⟩ := hr
  rw [valLoop_idx_enum] at hj
  cases hfail : fail (l.get ⟨j, h⟩) with
  | false => rw [hr]; exact hfail
  | true => exact absurd (Or.inr ⟨h, hfail⟩) hj

/-- Shape of a validation result: `None` when no row failed, otherwise
`Aggregate` of one `Validate` entry per failing row in scan order. -/
theorem validate_result_shape [DecidableEq R] (fail : R → Bool) (l : List R)
    (idx : List Nat) :
    (if (valLoop fail (enumIdx 0 l) [] idx).1.length > 0 then
        NormalizationError.Aggregate (valLoop fail (enumIdx 0 l) [] idx).1
      else NormalizationError.none) =
      (if ((enumIdx 0 l).filter (fun p => fail p.2)) = [] then
        NormalizationError.none
      else NormalizationError.Aggregate
        (((enumIdx 0 l).filter (fun p => fail p.2)).map
          (fun p => NormalizationError.Validate "Data is invalid" p.1))) := by
  have hout := valLoop_out fail (enumIdx 0 l) [] idx
  rw [List.nil_append] at hout
  rw [hout]
  by_cases hf : ((enumIdx 0 l).filter (fun p => fail p.2)) = []
  · rw [hf]
    simp
  · rw [if_neg hf]
    rw [if_pos]
    rw [List.length_map]
    exact List.length_pos_of_ne_nil hf

/-! ### Extraction lemmas for providers b and c -/

theorem JValue.asStr_of_isString {v : JValue} (h : v.isString = true) :
    ∃ s, v.asStr = some s := by
  cases v with
  | str s => exact ⟨s, rfl⟩
  | int n => simp [JValue.isString] at h
  | other => simp [JValue.isString] at h

theorem JValue.asI64_of_isI64 {v : JValue} (h : v.isI64 = true) :
    ∃ n, v.asI64 = some n := by
  cases v with
  | str s => simp [JValue.isI64] at h
  | int n => exact ⟨n, rfl⟩
  | other => simp [JValue.isI64] at h

/-- Decomposition of `failB row = false`. -/
theorem failB_false {row : RowB} (h : failB row = false) :
    checkStrField "patient_id" row = true ∧
    checkStrField "assessment_type" row = true ∧
    ∀ k ∈ scoreKeys row,
      (match alFind k row with
       | some v => v.isI64
       | Option.none => false) = true := by
  rw [failB, Bool.or_eq_false_iff] at h
  obtain ⟨h1, h2⟩ := h
  rw [Bool.not_eq_false'] at h1
  rw [Bool.and_eq_true, Bool.and_eq_true, Bool.and_eq_true] at h1
  refine ⟨h1.1.1.1, h1.1.2, ?_⟩
  intro k hk
  rw [List.any_eq_false] at h2
  have := h2 k hk
  simpa using this

/-- A row that passed provider b's validation cannot make `convert` panic. -/
theorem extractB_isSome_of_pass {row : RowB} (h : failB row = false) :
    (extractB row).isSome = true := by
  obtain ⟨h1, h2, h3⟩ := failB_false h
  rw [checkStrField] at h1 h2
  rw [extractB]
  cases hf1 : alFind "patient_id" row with
  | none => rw [hf1] at h1; simp at h1
  | some v1 =>
    rw [hf1] at h1
    have h1a : v1.isString = true := h1
    obtain ⟨pid, hpid⟩ := JValue.asStr_of_isString h1a
    simp only [Option.some_bind, hpid]
    cases hf2 : alFind "assessment_type" row with
    | none => rw [hf2] at h2; simp at h2
    | some v2 =>
      rw [hf2] at h2
      have h2a : v2.isString = true := h2
      obtain ⟨at_, hat⟩ := JValue.asStr_of_isString h2a
      simp only [Option.some_bind, hat]
      have hmm : (optMapM (fun k =>
          ((alFind k row).bind JValue.asI64).map
            (fun v => NormalizeScore.mk (dimOf k) v "0-100"))
        (scoreKeys row)).isSome = true := by
        apply optMapM_isSome
        intro k hk
        have hk3 := h3 k hk
        cases hfk : alFind k row with
        | none => rw [hfk] at hk3; simp at hk3
        | some v =>
          rw [hfk] at hk3
          have hk3a : v.isI64 = true := hk3
          obtain ⟨n, hn⟩ := JValue.asI64_of_isI64 hk3a
          simp [hn]
      cases hmm2 : optMapM (fun k =>
          ((alFind k row).bind JValue.asI64).map
            (fun v => NormalizeScore.mk (dimOf k) v "0-100"))
        (scoreKeys row) with
      | none => rw [hmm2] at hmm; simp at hmm
      | some scs => simp

/-- Decomposition of `failC row = false`. -/
theorem failC_false {row : RowC} (h : failC row = false) :
    checkNonEmptyField "patient_id" row = true ∧
    checkNonEmptyField "metric_name" row = true ∧
    checkValueField row = true ∧
    checkNonEmptyField "category" row = true := by
  rw [failC, Bool.not_eq_false'] at h
  rw [Bool.and_eq_true, Bool.and_eq_true, Bool.and_eq_true,
    Bool.and_eq_true] at h
  exact ⟨h.1.1.1.1, h.1.1.2, h.1.2, h.2⟩

/-- A row that passed provider c's validation cannot make `convert` panic. -/
theorem extractC_isSome_of_pass {row : RowC} (h : failC row = false) :
    (extractC row).isSome = true := by
  obtain ⟨h1, h2, h3, h4⟩ := failC_false h
  rw [checkNonEmptyField] at h1 h2 h4
  rw [checkValueField] at h3
  rw [extractC]
  cases hf1 : alFind "patient_id" row with
  | none => rw [hf1] at h1; simp at h1
  | some idv =>
    cases hf4 : alFind "category" row with
    | none => rw [hf4] at h4; simp at h4
    | some catv =>
      cases hf2 : alFind "metric_name" row with
      | none => rw [hf2] at h2; simp at h2
      | some mv =>
        cases hf3 : alFind "metric_value" row with
        | none => rw [hf3] at h3; simp at h3
        | some vs =>
          rw [hf3] at h3
          have h3a : (match parseI64 vs with
            | some v => decide (0 ≤ v) && decide (v ≤ 100)
            | Option.none => false) = true := h3
          cases hp : parseI64 vs with
          | none => rw [hp] at h3a; simp at h3a
          | some v => simp [hp]

/-- Inversion of provider b's extraction: every score in the derived entry
is the *unchanged* integer found under some `score_*` key of the row. -/
theorem extractB_inv {row : RowB} {e : Entry} (h : extractB row = some e) :
    ∀ sc ∈ entryScores e, ∃ k ∈ scoreKeys row,
      (alFind k row).bind JValue.asI64 = some sc.value := by
  rw [extractB] at h
  cases hf1 : (alFind "patient_id" row).bind JValue.asStr with
  | none => rw [hf1] at h; simp at h
  | some pid =>
    rw [hf1] at h
    have hB : (match (alFind "assessment_type" row).bind JValue.asStr with
      | Option.none => Option.none
      | some at_ =>
        (optMapM (fun k =>
            ((alFind k row).bind JValue.asI64).map
              (fun v => NormalizeScore.mk (dimOf k) v "0-100"))
          (scoreKeys row)).map (fun scs => (pid, at_, scs))) = some e := h
    cases hf2 : (alFind "assessment_type" row).bind JValue.asStr with
    | none => rw [hf2] at hB; simp at hB
    | some at_ =>
      rw [hf2] at hB
      have hC : (optMapM (fun k =>
          ((alFind k row).bind JValue.asI64).map
            (fun v => NormalizeScore.mk (dimOf k) v "0-100"))
        (scoreKeys row)).map (fun scs => (pid, at_, scs)) = some e := hB
      cases hm : optMapM (fun k =>
          ((alFind k row).bind JValue.asI64).map
            (fun v => NormalizeScore.mk (dimOf k) v "0-100"))
        (scoreKeys row) with
      | none => rw [hm] at hC; simp at hC
      | some scs =>
        rw [hm] at hC
        simp only [Option.map_some', Option.some.injEq] at hC
        intro sc hsc
        have hsc' : sc ∈ scs := by
          rw [← hC] at hsc
          exact hsc
        obtain ⟨k, hk, hfk⟩ := optMapM_mem _ hm hsc'
        refine ⟨k, hk, ?_⟩
        cases hbk : (alFind k row).bind JValue.asI64 with
        | none => rw [hbk] at hfk; simp at hfk
        | some v =>
          rw [hbk] at hfk
          simp only [Option.map_some', Option.some.injEq] at hfk
          rw [← hfk]

/-- Inversion of provider c's extraction: the single score in the derived
entry is ten times the parsed `metric_value` of the row. -/
theorem extractC_inv {row : RowC} {e : Entry} (h : extractC row = some e) :
    ∀ sc ∈ entryScores e, ∃ vs v, alFind "metric_value" row = some vs ∧
      parseI64 vs = some v ∧ sc.value = v * 10 := by
  rw [extractC] at h
  cases hf1 : alFind "patient_id" row with
  | none => rw [hf1] at h; simp at h
  | some id =>
    rw [hf1] at h
    have hB : (match alFind "category" row with
      | Option.none => Option.none
      | some cat =>
        match alFind "metric_name" row with
        | Option.none => Option.none
        | some metric =>
          match (alFind "metric_value" row).bind parseI64 with
          | Option.none => Option.none
          | some v =>
            some (id, cat, [NormalizeScore.mk metric (v * 10) "0-100"])) =
      some e := h
    cases hf4 : alFind "category" row with
    | none => rw [hf4] at hB; simp at hB
    | some cat =>
      rw [hf4] at hB
      have hC : (match alFind "metric_name" row with
        | Option.none => Option.none
        | some metric =>
          match (alFind "metric_value" row).bind parseI64 with
          | Option.none => Option.none
          | some v =>
            some (id, cat, [NormalizeScore.mk metric (v * 10) "0-100"])) =
        some e := hB
      cases hf2 : alFind "metric_name" row with
      | none => rw [hf2] at hC; simp at hC
      | some metric =>
        rw [hf2] at hC
        have hD : (match (alFind "metric_value" row).bind parseI64 with
          | Option.none => Option.none
          | some v =>
            some (id, cat, [NormalizeScore.mk metric (v * 10) "0-100"])) =
          some e := hC
        cases hf3 : alFind "metric_value" row with
        | none => rw [hf3] at hD; simp at hD
        | some vs =>
          rw [hf3] at hD
          have hE : (match parseI64 vs with
            | Option.none => Option.none
            | some v =>
              some (id, cat, [NormalizeScore.mk metric (v * 10) "0-100"])) =
            some e := hD
          cases hp : parseI64 vs with
          | none => rw [hp] at hE; simp at hE
          | some v =>
            rw [hp] at hE
            simp only [Option.some.injEq] at hE
            intro sc hsc
            rw [← hE] at hsc
            have hsc' : sc = NormalizeScore.mk metric (v * 10) "0-100" := by
              simpa [entryScores] using hsc
            exact ⟨vs, v, rfl, hp, by rw [hsc']⟩

/-! ### Claim theorems -/

/-- C6: for every adapter, the pipeline driver `run_provider` returns an
error exactly when `parse` fails, and then it is exactly that `Parse` error;
by the shape of the driver, `validate` and `convert` are never reached on
that path. -/
theorem C6_parse_short_circuit :
    (∀ (now : String) (input : Except String (List DataA)) (s : PState DataA)
        (e : NormalizationError),
      run_provider_a now input s = Except.error e ↔
        parseA input s = Except.error e) ∧
    (∀ (now : String) (input : Except String (List RowB)) (s : PState RowB)
        (e : NormalizationError),
      run_provider_b now input s = some (Except.error e) ↔
        parseB input s = Except.error e) ∧
    (∀ (now : String) (text : String) (s : PState RowC)
        (e : NormalizationError),
      run_provider_c now text s = some (Except.error e) ↔
        parseC text s = Except.error e) := by
  refine ⟨?_, ?_, ?_⟩
  · intro now input s e
    rw [run_provider_a]
    cases hp : parseA input s with
    | error e0 => simp
    | ok s1 => simp
  · intro now input s e
    rw [run_provider_b]
    cases hp : parseB input s with
    | error e0 => simp
    | ok s1 =>
      cases hc : convertB now (validateB s1).2 with
      | none => simp [hc]
      | some out => simp [hc]
  · intro now text s e
    rw [run_provider_c]
    cases hp : parseC text s with
    | error e0 => simp
    | ok s1 =>
      cases hc : convertC now (validateC s1).2 with
      | none => simp [hc]
      | some out => simp [hc]

/-- C9: for every adapter, `validate` only ever inserts into the error
index: afterwards an index is present iff it was present before or the
corresponding row fails this pass's predicate — the union of the old set
with the newly flagged indices, so repeated calls accumulate. -/
theorem C9_error_index_union :
    (∀ (s : PState DataA) (j : Nat),
      j ∈ ((validateA s).2).error_index ↔
        j ∈ s.error_index ∨
          ∃ h : j < s.data.length, failA (s.data.get ⟨j, h⟩) = true) ∧
    (∀ (s : PState RowB) (j : Nat),
      j ∈ ((validateB s).2).error_index ↔
        j ∈ s.error_index ∨
          ∃ h : j < s.data.length, failB (s.data.get ⟨j, h⟩) = true) ∧
    (∀ (s : PState RowC) (j : Nat),
      j ∈ ((validateC s).2).error_index ↔
        j ∈ s.error_index ∨
          ∃ h : j < s.data.length, failC (s.data.get ⟨j, h⟩) = true) := by
  refine ⟨?_, ?_, ?_⟩
  · intro s j
    exact valLoop_idx_enum failA s.data s.error_index j
  · intro s j
    exact valLoop_idx_enum failB s.data s.error_index j
  · intro s j
    exact valLoop_idx_enum failC s.data s.error_index j

/-- C8: for every adapter, `validate` returns `None` when no row fails the
predicates, and otherwise `Aggregate` with exactly one
`Validate("Data is invalid", index)` entry per failing row; the flagged
indices are listed in strictly ascending order. -/
theorem C8_aggregate_shape :
    (∀ s : PState DataA,
      (validateA s).1 =
        (if ((enumIdx 0 s.data).filter (fun p => failA p.2)) = [] then
          NormalizationError.none
        else NormalizationError.Aggregate
          (((enumIdx 0 s.data).filter (fun p => failA p.2)).map
            (fun p => NormalizationError.Validate "Data is invalid" p.1))) ∧
      (((enumIdx 0 s.data).filter (fun p => failA p.2)).map
        Prod.fst).Pairwise (· < ·)) ∧
    (∀ s : PState RowB,
      (validateB s).1 =
        (if ((enumIdx 0 s.data).filter (fun p => failB p.2)) = [] then
          NormalizationError.none
        else NormalizationError.Aggregate
          (((enumIdx 0 s.data).filter (fun p => failB p.2)).map
            (fun p => NormalizationError.Validate "Data is invalid" p.1))) ∧
      (((enumIdx 0 s.data).filter (fun p => failB p.2)).map
        Prod.fst).Pairwise (· < ·)) ∧
    (∀ s : PState RowC,
      (validateC s).1 =
        (if ((enumIdx 0 s.data).filter (fun p => failC p.2)) = [] then
          NormalizationError.none
        else NormalizationError.Aggregate
          (((enumIdx 0 s.data).filter (fun p => failC p.2)).map
            (fun p => NormalizationError.Validate "Data is invalid" p.1))) ∧
      (((enumIdx 0 s.data).filter (fun p => failC p.2)).map
        Prod.fst).Pairwise (· < ·)) := by
  refine ⟨?_, ?_, ?_⟩ <;> intro s <;>
    refine ⟨validate_result_shape _ s.data s.error_index, ?_⟩ <;>
    · rw [List.pairwise_map]
      exact (enumIdx_pairwise 0 s.data).filter _

/-- C10: after `validate` has run on the state left by the most recent
`parse`, `convert` cannot panic for the flat-JSON and delimited-text
adapters: every surviving row passed the field predicates, so the panicking
lookups and `unwrap`s inside `convert` always succeed. -/
theorem C10_convert_total_after_validate :
    (∀ (now : String) (s : PState RowB),
      (convertB now ((validateB s).2)).isSome = true) ∧
    (∀ (now : String) (s : PState RowC),
      (convertC now ((validateC s).2)).isSome = true) := by
  constructor
  · intro now s
    have hed : ((validateB s).2).error_index =
        (valLoop failB (enumIdx 0 s.data) [] s.error_index).2 := rfl
    have hdd : ((validateB s).2).data = s.data := rfl
    rw [convertB, convLoopOpt_eq, hed, hdd]
    have hpass := survivors_pass failB s.data s.error_index
    have hsome := optMapM_isSome extractB
      (survivorsFrom (valLoop failB (enumIdx 0 s.data) [] s.error_index).2
        (enumIdx 0 s.data))
      (fun r hr => extractB_isSome_of_pass (hpass r hr))
    cases hm : optMapM extractB
        (survivorsFrom (valLoop failB (enumIdx 0 s.data) [] s.error_index).2
          (enumIdx 0 s.data)) with
    | none => rw [hm] at hsome; simp at hsome
    | some es => simp [hm]
  · intro now s
    have hed : ((validateC s).2).error_index =
        (valLoop failC (enumIdx 0 s.data) [] s.error_index).2 := rfl
    have hdd : ((validateC s).2).data = s.data := rfl
    rw [convertC, convLoopOpt_eq, hed, hdd]
    have hpass := survivors_pass failC s.data s.error_index
    have hsome := optMapM_isSome extractC
      (survivorsFrom (valLoop failC (enumIdx 0 s.data) [] s.error_index).2
        (enumIdx 0 s.data))
      (fun r hr => extractC_isSome_of_pass (hpass r hr))
    cases hm : optMapM extractC
        (survivorsFrom (valLoop failC (enumIdx 0 s.data) [] s.error_index).2
          (enumIdx 0 s.data)) with
    | none => rw [hm] at hsome; simp at hsome
    | some es => simp [hm]

theorem failA_iff (d : DataA) : failA d = true ↔
    (d.patient.id.length = 0 ∧ d.patient.name.length = 0 ∧
     d.patient.dob = Option.none ∧ d.assessment.type_.length = 0 ∧
     d.assessment.scores = [] ∧ d.assessment.notes.length = 0) := by
  rw [failA]
  simp [Bool.and_eq_true, decide_eq_true_eq, Option.isNone_iff_eq_none,
    List.length_eq_zero, and_assoc]

/-- C5 (amended): for the nested-JSON adapter, `validate` produces a
`Validate` entry for row `i` exactly when the row's patient id, patient
name, date-of-birth, assessment type, scores and notes are all
simultaneously empty/absent; consequently every populated row of this
adapter validates successfully.  (The other adapters enforce field-level
predicates that populated rows can fail, see the counterexample.) -/
theorem C5_blank_row_only :
    ∀ (s : PState DataA) (i : Nat),
      (∃ errs, (validateA s).1 = NormalizationError.Aggregate errs ∧
        NormalizationError.Validate "Data is invalid" i ∈ errs) ↔
      ∃ h : i < s.data.length,
        (s.data.get ⟨i, h⟩).patient.id.length = 0 ∧
        (s.data.get ⟨i, h⟩).patient.name.length = 0 ∧
        (s.data.get ⟨i, h⟩).patient.dob = Option.none ∧
        (s.data.get ⟨i, h⟩).assessment.type_.length = 0 ∧
        (s.data.get ⟨i, h⟩).assessment.scores = [] ∧
        (s.data.get ⟨i, h⟩).assessment.notes.length = 0 := by
  intro s i
  have hv : (validateA s).1 =
      (if ((enumIdx 0 s.data).filter (fun p => failA p.2)) = [] then
        NormalizationError.none
      else NormalizationError.Aggregate
        (((enumIdx 0 s.data).filter (fun p => failA p.2)).map
          (fun p => NormalizationError.Validate "Data is invalid" p.1))) :=
    validate_result_shape failA s.data s.error_index
  rw [hv]
  constructor
  · rintro ⟨errs, herrs, hmem⟩
    by_cases hf : ((enumIdx 0 s.data).filter (fun p => failA p.2)) = []
    · rw [if_pos hf] at herrs
      exact NormalizationError.noConfusion herrs
    · rw [if_neg hf] at herrs
      injection herrs with he
      rw [← he, List.mem_map] at hmem
      obtain ⟨p, hp, heq⟩ := hmem
      injection heq with hmsg hidx
      rw [List.mem_filter] at hp
      obtain ⟨hpl, hpf⟩ := hp
      rw [mem_enumIdx] at hpl
      obtain ⟨j, hj, h1, h2⟩ := hpl
      have hij : i = j := by omega
      subst hij
      refine ⟨hj, ?_⟩
      rw [← h2]
      exact (failA_iff p.2).mp hpf
  · rintro ⟨h, hprops⟩
    have hfail : failA (s.data.get ⟨i, h⟩) = true := (failA_iff _).mpr hprops
    have hpmem : (i, s.data.get ⟨i, h⟩) ∈
        (enumIdx 0 s.data).filter (fun p => failA p.2) := by
      rw [List.mem_filter]
      exact ⟨mem_enumIdx.mpr ⟨i, h, by omega, rfl⟩, hfail⟩
    have hne : ((enumIdx 0 s.data).filter (fun p => failA p.2)) ≠ [] :=
      List.ne_nil_of_mem hpmem
    rw [if_neg hne]
    exact ⟨_, rfl, List.mem_map.mpr ⟨(i, s.data.get ⟨i, h⟩), hpmem, rfl⟩⟩

/-- C5 counterexample: a fully populated delimited-text row (every field
non-empty) still fails validation — `metric_value` `"200"` is outside
[0, 100] — so "for every adapter, every populated row validates
successfully" is false as stated. -/
theorem C5_counterexample :
    (validateC ⟨[[("assessment_date", "2024-10-15"), ("category", "behavioral"),
      ("metric_name", "attention"), ("metric_value", "200"),
      ("patient_id", "P1")]], []⟩).1 =
      NormalizationError.Aggregate
        [NormalizationError.Validate "Data is invalid" 0] ∧
    ((validateC ⟨[[("assessment_date", "2024-10-15"),
      ("category", "behavioral"), ("metric_name", "attention"),
      ("metric_value", "200"), ("patient_id", "P1")]], []⟩).2).error_index =
      [0] ∧
    ∀ p ∈ [("assessment_date", "2024-10-15"), ("category", "behavioral"),
      ("metric_name", "attention"), ("metric_value", "200"),
      ("patient_id", "P1")], (p : String × String).2.length > 0 := by
  exact ⟨rfl, rfl, by decide⟩

theorem csvRecords_some_len (t : String) {v : List String}
    (hv : some v ∈ (csvRecords t).2) : v.length = (csvRecords t).1.length := by
  rw [csvRecords] at hv ⊢
  cases hsplit : (splitLines t).filter (fun l => decide (l ≠ [])) with
  | nil => rw [hsplit] at hv; simp at hv
  | cons h rest =>
    rw [hsplit] at hv
    have hv2 : some v ∈ rest.map (fun l =>
        if (csvFields l).length = (csvFields h).length then
          some (csvFields l) else Option.none) := hv
    rw [List.mem_map] at hv2
    obtain ⟨l, _, hl⟩ := hv2
    show v.length = (csvFields h).length
    by_cases hlen : (csvFields l).length = (csvFields h).length
    · rw [if_pos hlen] at hl
      rw [← Option.some.inj hl]
      exact hlen
    · rw [if_neg hlen] at hl
      exact Option.noConfusion hl

theorem goParseC_data (hc : Nat) (headers : List String) :
    ∀ (l : List (Option (List String))) (st st' : PState RowC),
      (∀ v : List String, some v ∈ l → v.length = hc) →
      goParseC hc headers l st = Except.ok st' →
      st'.data = st.data ++ (l.filterMap id).map (rowFromC headers) := by
  intro l
  induction l with
  | nil =>
    intro st st' _ h
    rw [goParseC] at h
    injection h with h
    rw [← h]
    simp
  | cons o rest ih =>
    intro st st' hlen h
    cases o with
    | none =>
      rw [goParseC] at h
      have := ih st st' (fun v hv => hlen v (List.mem_cons_of_mem _ hv)) h
      simpa using this
    | some v =>
      rw [goParseC] at h
      have hvlen : v.length = hc := hlen v (List.mem_cons_self _ _)
      rw [if_neg (by omega)] at h
      have := ih _ st' (fun v' hv' => hlen v' (List.mem_cons_of_mem _ hv')) h
      rw [this]
      simp [List.filterMap_cons]

/-- C4 (amended): the nested-JSON and flat-JSON adapters replace the stored
rows on every successful `parse`; the delimited-text adapter instead
*appends* the newly read rows after any previously stored rows
(`self.data.push(row)` without clearing). -/
theorem C4_parse_replacement :
    (∀ (rows1 rows2 : List DataA) (s s1 s2 : PState DataA),
      parseA (Except.ok rows1) s = Except.ok s1 →
      parseA (Except.ok rows2) s1 = Except.ok s2 →
      s2.data = rows2) ∧
    (∀ (rows1 rows2 : List RowB) (s s1 s2 : PState RowB),
      parseB (Except.ok rows1) s = Except.ok s1 →
      parseB (Except.ok rows2) s1 = Except.ok s2 →
      s2.data = rows2) ∧
    (∀ (text : String) (s s1 : PState RowC),
      parseC text s = Except.ok s1 →
      s1.data = s.data ++ rowsOfC text) := by
  refine ⟨?_, ?_, ?_⟩
  · intro rows1 rows2 s s1 s2 _ h2
    have h2a : Except.ok ({ s1 with data := rows2 } : PState DataA) =
        Except.ok s2 := h2
    injection h2a with h2b
    rw [← h2b]
  · intro rows1 rows2 s s1 s2 _ h2
    have h2a : Except.ok ({ s1 with data := rows2 } : PState RowB) =
        Except.ok s2 := h2
    injection h2a with h2b
    rw [← h2b]
  · intro text s s1 h
    rw [parseC] at h
    exact goParseC_data (csvRecords text).1.length (csvRecords text).1
      (csvRecords text).2 s s1 (fun v hv => csvRecords_some_len text hv) h

/-- C4 counterexample: two successive successful `parse` calls on the
delimited-text adapter leave the rows of *both* inputs in the store, not
only the second input's rows. -/
theorem C4_counterexample :
    parseC "patient_id\nP1" (PState.new RowC) =
      Except.ok ⟨[[("patient_id", "P1")]], []⟩ ∧
    parseC "patient_id\nP2" ⟨[[("patient_id", "P1")]], []⟩ =
      Except.ok ⟨[[("patient_id", "P1")], [("patient_id", "P2")]], []⟩ ∧
    ([[("patient_id", "P1")], [("patient_id", "P2")]] : List RowC) ≠
      [[("patient_id", "P2")]] := by
  exact ⟨rfl, rfl, by decide⟩

/-- C4 witness: the amended theorem applied to the delimited-text adapter at
a concrete input. -/
theorem C4_parse_replacement_witness :
    (⟨[[("patient_id", "P1")]], []⟩ : PState RowC).data =
      (PState.new RowC).data ++ rowsOfC "patient_id\nP1" :=
  C4_parse_replacement.2.2 "patient_id\nP1" (PState.new RowC)
    ⟨[[("patient_id", "P1")]], []⟩ rfl

/-- C3 (code-bug evidence): on input whose second line has six fields
against a five-field header, `parse` does **not** return a `Parse` error:
the csv reader flags the record, `if let Ok(values)` silently drops it, the
explicit field-count check never fires, and the remaining valid row is
parsed, validated and converted, so the pipeline output is non-empty. -/
theorem C3_mismatched_row_dropped :
    parseC "patient_id,assessment_date,metric_name,metric_value,category\nP1,2024-10-15,m,6,beh,extra\nP2,2024-10-15,m,7,beh"
        (PState.new RowC) =
      Except.ok ⟨[[("assessment_date", "2024-10-15"), ("category", "beh"),
        ("metric_name", "m"), ("metric_value", "7"), ("patient_id", "P2")]],
        []⟩ ∧
    run_provider_c "T"
        "patient_id,assessment_date,metric_name,metric_value,category\nP1,2024-10-15,m,6,beh,extra\nP2,2024-10-15,m,7,beh"
        (PState.new RowC) =
      some (Except.ok
        ([⟨"P2", "T", "beh", [⟨"m", 70, "0-100"⟩], metaC "T"⟩],
         NormalizationError.none)) := by
  constructor
  · rfl
  · rfl

/-- C2: for every batch, `convert` emits exactly one record per distinct
(patientId, assessmentType) pair among the surviving rows (recurring pairs
append their scores to the same record, in row order), and the output is
sorted ascending lexicographically by patientId then assessmentType, not by
input order.  Stated for the two cited adapters: nested-JSON
(unconditionally) and delimited-text (whenever its `convert` returns). -/
theorem C2_grouping :
    (∀ (now : String) (s : PState DataA),
      (convertA now s).length =
        (((survivorsFrom s.error_index (enumIdx 0 s.data)).map
          (fun d => (d.patient.id, d.assessment.type_))).dedup).length ∧
      ((convertA now s).map
        (fun r => (r.patientId, r.assessmentType))).Pairwise pairLt ∧
      (∀ rec ∈ convertA now s,
        rec.scores =
          ((survivorsFrom s.error_index (enumIdx 0 s.data)).filter
            (fun d => decide ((d.patient.id, d.assessment.type_) =
              (rec.patientId, rec.assessmentType)))).flatMap
            (fun d => d.assessment.scores.map
              (fun p => (⟨p.1, p.2 * 10, "0-100"⟩ : NormalizeScore))))) ∧
    (∀ (now : String) (s : PState RowC) (out : List NormalizeData),
      convertC now s = some out →
      ∃ es, optMapM extractC
          (survivorsFrom s.error_index (enumIdx 0 s.data)) = some es ∧
        out.length = ((es.map entryKey).dedup).length ∧
        (out.map (fun r => (r.patientId, r.assessmentType))).Pairwise pairLt ∧
        ∀ rec ∈ out, rec.scores =
          (keyFilter es rec.patientId rec.assessmentType).flatMap
            entryScores) := by
  constructor
  · intro now s
    rw [convertA_eq]
    have hchar := foldChar now (metaA now)
      ((survivorsFrom s.error_index (enumIdx 0 s.data)).map entryA)
    refine ⟨?_, hchar.2.1, ?_⟩
    · rw [hchar.1, List.map_map]
      rfl
    · intro rec hrec
      obtain ⟨heq, _⟩ := hchar.2.2 rec hrec
      have hscores : rec.scores =
          (keyFilter ((survivorsFrom s.error_index (enumIdx 0 s.data)).map
            entryA) rec.patientId rec.assessmentType).flatMap entryScores := by
        conv_lhs => rw [heq]
      rw [hscores, keyFilter, List.filter_map, List.flatMap_map]
      rfl
  · intro now s out hconv
    rw [convertC_eq] at hconv
    obtain ⟨es, hes, hout⟩ := hconv
    subst hout
    have hchar := foldChar now (metaC now) es
    refine ⟨es, hes, hchar.1, hchar.2.1, ?_⟩
    intro rec hrec
    obtain ⟨heq, _⟩ := hchar.2.2 rec hrec
    conv_lhs => rw [heq]

/-- C2 witness: the grouping theorem instantiated on a concrete nested-JSON
batch of two rows sharing one (patientId, assessmentType) pair. -/
theorem C2_grouping_witness :
    exRecA.scores =
      ((survivorsFrom exSA.error_index (enumIdx 0 exSA.data)).filter
        (fun d => decide ((d.patient.id, d.assessment.type_) =
          (exRecA.patientId, exRecA.assessmentType)))).flatMap
        (fun d => d.assessment.scores.map
          (fun p => (⟨p.1, p.2 * 10, "0-100"⟩ : NormalizeScore))) :=
  (C2_grouping.1 "T" exSA).2.2 exRecA (by decide)

/-- C1 counterexample: the flat-JSON adapter stores a raw score of 7 as 7
(not 70), and the delimited-text adapter stores a raw metric value of 6 as
60 (not 6) — the opposite of the claimed per-adapter scaling. -/
theorem C1_counterexample :
    convertB "T" exSB =
      some [⟨"P1", "T", "t", [⟨"x", 7, "0-100"⟩], metaB "T"⟩] ∧
    ((7 : Int) ≠ 10 * 7) ∧
    convertC "T" exSC =
      some [⟨"P1", "T", "beh", [⟨"m", 60, "0-100"⟩], metaC "T"⟩] ∧
    ((60 : Int) ≠ 6) := by
  refine ⟨by rfl, by decide, by rfl, by decide⟩

/-- C1 (amended): the nested-JSON adapter multiplies each raw score by 10;
the flat-JSON adapter stores each raw `score_*` integer *unchanged*; the
delimited-text adapter multiplies the parsed `metric_value` by 10 — every
output score value arises this way from a surviving row. -/
theorem C1_scale :
    (∀ (now : String) (s : PState DataA), ∀ rec ∈ convertA now s,
      ∀ sc ∈ rec.scores,
        ∃ d ∈ survivorsFrom s.error_index (enumIdx 0 s.data),
          ∃ p ∈ d.assessment.scores,
            sc = ⟨p.1, p.2 * 10, "0-100"⟩) ∧
    (∀ (now : String) (s : PState RowB) (out : List NormalizeData),
      convertB now s = some out → ∀ rec ∈ out, ∀ sc ∈ rec.scores,
        ∃ row ∈ survivorsFrom s.error_index (enumIdx 0 s.data),
          ∃ k ∈ scoreKeys row,
            (alFind k row).bind JValue.asI64 = some sc.value) ∧
    (∀ (now : String) (s : PState RowC) (out : List NormalizeData),
      convertC now s = some out → ∀ rec ∈ out, ∀ sc ∈ rec.scores,
        ∃ row ∈ survivorsFrom s.error_index (enumIdx 0 s.data),
          ∃ vs v, alFind "metric_value" row = some vs ∧
            parseI64 vs = some v ∧ sc.value = v * 10) := by
  refine ⟨?_, ?_, ?_⟩
  · intro now s rec hrec sc hsc
    rw [convertA_eq] at hrec
    obtain ⟨e, he, _, hesc⟩ := foldChar_score now (metaA now) _ hrec hsc
    rw [List.mem_map] at he
    obtain ⟨d, hd, hde⟩ := he
    rw [← hde] at hesc
    rw [entryA, entryScores] at hesc
    rw [List.mem_map] at hesc
    obtain ⟨p, hp, hpsc⟩ := hesc
    exact ⟨d, hd, p, hp, hpsc.symm⟩
  · intro now s out hconv rec hrec sc hsc
    rw [convertB_eq] at hconv
    obtain ⟨es, hes, hout⟩ := hconv
    subst hout
    obtain ⟨e, he, _, hesc⟩ := foldChar_score now (metaB now) es hrec hsc
    obtain ⟨row, hrow, hext⟩ := optMapM_mem extractB hes he
    obtain ⟨k, hk, hbind⟩ := extractB_inv hext sc hesc
    exact ⟨row, hrow, k, hk, hbind⟩
  · intro now s out hconv rec hrec sc hsc
    rw [convertC_eq] at hconv
    obtain ⟨es, hes, hout⟩ := hconv
    subst hout
    obtain ⟨e, he, _, hesc⟩ := foldChar_score now (metaC now) es hrec hsc
    obtain ⟨row, hrow, hext⟩ := optMapM_mem extractC hes he
    obtain ⟨vs, v, hfind, hparse, hval⟩ := extractC_inv hext sc hesc
    exact ⟨row, hrow, vs, v, hfind, hparse, hval⟩

/-- C1 witness: the amended scale theorem instantiated on the concrete
flat-JSON batch, exhibiting the unchanged raw value 7. -/
theorem C1_scale_witness :
    ∃ row ∈ survivorsFrom exSB.error_index (enumIdx 0 exSB.data),
      ∃ k ∈ scoreKeys row,
        (alFind k row).bind JValue.asI64 =
          some (NormalizeScore.mk "x" 7 "0-100").value :=
  C1_scale.2.1 "T" exSB
    [⟨"P1", "T", "t", [⟨"x", 7, "0-100"⟩], metaB "T"⟩] (by rfl)
    ⟨"P1", "T", "t", [⟨"x", 7, "0-100"⟩], metaB "T"⟩ (by simp)
    (NormalizeScore.mk "x" 7 "0-100") (by simp)

/-- C7: no record or score in `convert`'s output derives from a row whose
ordinal index is in the error index: every output record's key pair and
every output score come from some surviving (non-flagged) row. -/
theorem C7_error_index_skip :
    (∀ (now : String) (s : PState DataA), ∀ rec ∈ convertA now s,
      (∃ i, ∃ h : i < s.data.length, i ∉ s.error_index ∧
        (s.data.get ⟨i, h⟩).patient.id = rec.patientId ∧
        (s.data.get ⟨i, h⟩).assessment.type_ = rec.assessmentType) ∧
      ∀ sc ∈ rec.scores, ∃ i, ∃ h : i < s.data.length, i ∉ s.error_index ∧
        ∃ p ∈ (s.data.get ⟨i, h⟩).assessment.scores,
          sc = ⟨p.1, p.2 * 10, "0-100"⟩) ∧
    (∀ (now : String) (s : PState RowB) (out : List NormalizeData),
      convertB now s = some out → ∀ rec ∈ out,
      (∃ i, ∃ h : i < s.data.length, i ∉ s.error_index ∧
        ∃ e, extractB (s.data.get ⟨i, h⟩) = some e ∧
          entryKey e = (rec.patientId, rec.assessmentType)) ∧
      ∀ sc ∈ rec.scores, ∃ i, ∃ h : i < s.data.length, i ∉ s.error_index ∧
        ∃ e, extractB (s.data.get ⟨i, h⟩) = some e ∧ sc ∈ entryScores e) ∧
    (∀ (now : String) (s : PState RowC) (out : List NormalizeData),
      convertC now s = some out → ∀ rec ∈ out,
      (∃ i, ∃ h : i < s.data.length, i ∉ s.error_index ∧
        ∃ e, extractC (s.data.get ⟨i, h⟩) = some e ∧
          entryKey e = (rec.patientId, rec.assessmentType)) ∧
      ∀ sc ∈ rec.scores, ∃ i, ∃ h : i < s.data.length, i ∉ s.error_index ∧
        ∃ e, extractC (s.data.get ⟨i, h⟩) = some e ∧ sc ∈ entryScores e) := by
  refine ⟨?_, ?_, ?_⟩
  · intro now s rec hrec
    rw [convertA_eq] at hrec
    constructor
    · obtain ⟨e, he, hkey⟩ := foldChar_pair now (metaA now) _ hrec
      rw [List.mem_map] at he
      obtain ⟨d, hd, hde⟩ := he
      rw [mem_survivorsFrom] at hd
      obtain ⟨i, h, hie, hdi⟩ := hd
      refine ⟨i, h, hie, ?_, ?_⟩
      · have : entryKey (entryA d) = (rec.patientId, rec.assessmentType) := by
          rw [hde]; exact hkey
        rw [← hdi]
        exact congrArg Prod.fst this
      · have : entryKey (entryA d) = (rec.patientId, rec.assessmentType) := by
          rw [hde]; exact hkey
        rw [← hdi]
        exact congrArg Prod.snd this
    · intro sc hsc
      obtain ⟨e, he, _, hesc⟩ := foldChar_score now (metaA now) _ hrec hsc
      rw [List.mem_map] at he
      obtain ⟨d, hd, hde⟩ := he
      rw [mem_survivorsFrom] at hd
      obtain ⟨i, h, hie, hdi⟩ := hd
      rw [← hde] at hesc
      rw [entryA, entryScores, List.mem_map] at hesc
      obtain ⟨p, hp, hpsc⟩ := hesc
      exact ⟨i, h, hie, p, by rw [← hdi]; exact hp, hpsc.symm⟩
  · intro now s out hconv rec hrec
    rw [convertB_eq] at hconv
    obtain ⟨es, hes, hout⟩ := hconv
    subst hout
    constructor
    · obtain ⟨e, he, hkey⟩ := foldChar_pair now (metaB now) es hrec
      obtain ⟨row, hrow, hext⟩ := optMapM_mem extractB hes he
      rw [mem_survivorsFrom] at hrow
      obtain ⟨i, h, hie, hri⟩ := hrow
      exact ⟨i, h, hie, e, by rw [← hri]; exact hext, hkey⟩
    · intro sc hsc
      obtain ⟨e, he, _, hesc⟩ := foldChar_score now (metaB now) es hrec hsc
      obtain ⟨row, hrow, hext⟩ := optMapM_mem extractB hes he
      rw [mem_survivorsFrom] at hrow
      obtain ⟨i, h, hie, hri⟩ := hrow
      exact ⟨i, h, hie, e, by rw [← hri]; exact hext, hesc⟩
  · intro now s out hconv rec hrec
    rw [convertC_eq] at hconv
    obtain ⟨es, hes, hout⟩ := hconv
    subst hout
    constructor
    · obtain ⟨e, he, hkey⟩ := foldChar_pair now (metaC now) es hrec
      obtain ⟨row, hrow, hext⟩ := optMapM_mem extractC hes he
      rw [mem_survivorsFrom] at hrow
      obtain ⟨i, h, hie, hri⟩ := hrow
      exact ⟨i, h, hie, e, by rw [← hri]; exact hext, hkey⟩
    · intro sc hsc
      obtain ⟨e, he, _, hesc⟩ := foldChar_score now (metaC now) es hrec hsc
      obtain ⟨row, hrow, hext⟩ := optMapM_mem extractC hes he
      rw [mem_survivorsFrom] at hrow
      obtain ⟨i, h, hie, hri⟩ := hrow
      exact ⟨i, h, hie, e, by rw [← hri]; exact hext, hesc⟩

/-- C7 witness: the skip theorem instantiated on the concrete nested-JSON
batch. -/
theorem C7_error_index_skip_witness :
    (∃ i, ∃ h : i < exSA.data.length, i ∉ exSA.error_index ∧
      (exSA.data.get ⟨i, h⟩).patient.id = exRecA.patientId ∧
      (exSA.data.get ⟨i, h⟩).assessment.type_ = exRecA.assessmentType) ∧
    ∀ sc ∈ exRecA.scores, ∃ i, ∃ h : i < exSA.data.length,
      i ∉ exSA.error_index ∧
      ∃ p ∈ (exSA.data.get ⟨i, h⟩).assessment.scores,
        sc = ⟨p.1, p.2 * 10, "0-100"⟩ :=
  C7_error_index_skip.1 "T" exSA exRecA (by decide)

